import Mathlib

/-!
Verification development for the consensus and issuance core of the
Interchained node: proof-of-work retargeting and validation (src/pow.cpp,
src/pow/yespower.cpp), block-template assembly (src/miner.cpp), and the
on-chain token ledger (src/wallet/token.h, src/wallet/token.cpp).

Machine integers are embedded as `Nat`/`Int` with explicit reductions
modulo `2^w` where the C++ arithmetic wraps; 256-bit `arith_uint256`
values are `Nat` taken modulo `2^256`.  External cryptographic
collaborators (the yespower hash, SHA-256, signature verification) are
taken as oracle parameters, as the spec treats them as out-of-scope pure
functions.
-/

namespace Interchained

/-- Modulus of the 256-bit `arith_uint256` arithmetic. -/
def U256 : Nat := 2 ^ 256

/-- Consensus parameters consumed by the PoW engine (`Consensus::Params`).
Limits are 256-bit targets as `Nat`; heights and times are `Int` (C++
`int`/`int64_t`). -/
structure ConsensusParams where
  powLimit : Nat
  powLimitYespower : Nat
  hashGenesisBlock : Nat
  yespowerForkHeight : Int
  difficultyForkHeight : Int
  nextDifficultyForkHeight : Int
  nextDifficultyFork2Height : Int
  nextDifficultyFork3Height : Int
  nextDifficultyFork5Height : Int
  nPowTargetSpacing : Int
  nPowTargetTimespan : Int
  fPowAllowMinDifficultyBlocks : Bool
  fPowNoRetargeting : Bool
  nFeeBurnEndHeight : Int
  deriving Repr

/-- Modelled from the spec: `Consensus::Params::DifficultyAdjustmentInterval`
(declared in consensus/params.h, which is not among the repository files) —
the Bitcoin-legacy retarget interval, `nPowTargetTimespan / nPowTargetSpacing`. -/
def DifficultyAdjustmentInterval (p : ConsensusParams) : Int :=
  p.nPowTargetTimespan.tdiv p.nPowTargetSpacing

/-- One entry of the chain index (`CBlockIndex`): height, timestamp, compact bits. -/
structure BlockIndex where
  nHeight : Int
  nTime : Int
  nBits : Nat
  deriving Repr, DecidableEq

/-- A chain tip with its ancestors: tip first, each `pprev` is the next
list element, the empty list standing for a null `pprev` pointer. -/
abbrev Chain := List BlockIndex

/-- An 80-byte block header as consumed by the PoW checks; only the fields
the embedded code inspects are carried, the rest is abstracted by the hash
oracles. -/
structure Header where
  nTime : Int
  deriving Repr, DecidableEq

/-- Result of `arith_uint256::SetCompact`: the decoded target and the
negative/overflow flags. -/
structure CompactDecoded where
  target : Nat
  negative : Bool
  overflow : Bool
  deriving Repr, DecidableEq

/-- `arith_uint256::SetCompact`: decode a compact `nBits` into a 256-bit
target plus negative/overflow flags. -/
def setCompact (nCompact : Nat) : CompactDecoded :=
  let nSize := nCompact >>> 24
  let nWord := nCompact &&& 0x007fffff
  let target :=
    if nSize ≤ 3 then nWord >>> (8 * (3 - nSize))
    else (nWord <<< (8 * (nSize - 3))) % U256
  { target := target
    negative := decide (nWord ≠ 0 ∧ nCompact &&& 0x00800000 ≠ 0)
    overflow := decide (nWord ≠ 0 ∧
      (nSize > 34 ∨ (nWord > 0xff ∧ nSize > 33) ∨ (nWord > 0xffff ∧ nSize > 32))) }

/-- Bit length of a `Nat`, by fuel-bounded halving (`base_uint::bits`). -/
def bitLenAux : Nat → Nat → Nat
  | 0, _ => 0
  | fuel + 1, n => if n = 0 then 0 else bitLenAux fuel (n / 2) + 1

/-- `arith_uint256::bits()` for values below `2^256`. -/
def bits256 (n : Nat) : Nat := bitLenAux 257 n

/-- `arith_uint256::GetCompact` (with `fNegative = false`, as at every call
site in the embedded code). -/
def getCompact (n : Nat) : Nat :=
  let nSize := (bits256 n + 7) / 8
  let nCompact :=
    if nSize ≤ 3 then (n % 2 ^ 64) <<< (8 * (3 - nSize))
    else (n >>> (8 * (nSize - 3))) % 2 ^ 64
  let pair :=
    if nCompact &&& 0x00800000 ≠ 0 then (nCompact >>> 8, nSize + 1)
    else (nCompact, nSize)
  pair.1 ||| (pair.2 <<< 24)

/-- C++ conversion `int64_t → uint32_t` (reduction modulo `2^32`), as
performed implicitly when an `int64_t` meets `arith_uint256::operator*`. -/
def toU32 (x : Int) : Nat := (x.emod (2 ^ 32)).toNat

/-- C++ conversion `int64_t → uint64_t` (reduction modulo `2^64`), as
performed implicitly by the `arith_uint256(uint64_t)` constructor. -/
def toU64 (x : Int) : Nat := (x.emod (2 ^ 64)).toNat

/-- The summation loop of `Lwma3`: walks `N` blocks back from the tip
(stopping at a null `pprev`), accumulating the weighted 256-bit target sum
and the weighted, ±6T-clipped solve-time sum. -/
def lwma3Go (T : Int) (N : Nat) : Chain → Nat → Nat → Int → Nat × Int
  | b :: prev :: rest, i, sumTarget, t =>
    if i < N then
      let st0 := b.nTime - prev.nTime
      let st1 := if st0 > 6 * T then 6 * T else st0
      let st2 := if st1 < -(6 * T) then -(6 * T) else st1
      lwma3Go T N (prev :: rest) (i + 1)
        ((sumTarget + (setCompact b.nBits).target * (i + 1)) % U256)
        (t + st2 * ((i : Int) + 1))
    else (sumTarget, t)
  | _, _, sumTarget, t => (sumTarget, t)

/-- `Lwma3` (src/pow.cpp): the LWMA-3 retarget.  `none` models the
`assert(pindexLast != nullptr)` failure. -/
def Lwma3 (chain : Chain) (p : ConsensusParams) : Option Nat :=
  match chain with
  | [] => none
  | tip :: rest =>
    let N : Nat := 60
    let T := p.nPowTargetSpacing
    let k : Int := 60 * (60 + 1) / 2
    let powLimit :=
      if tip.nHeight + 1 ≥ p.yespowerForkHeight then p.powLimitYespower else p.powLimit
    if tip.nHeight + 1 < p.nextDifficultyForkHeight + 60 then
      some (getCompact powLimit)
    else
      let st := lwma3Go T N (tip :: rest) 0 0 0
      if st.2 ≤ 0 then some (getCompact powLimit)
      else
        let nextTarget := (st.1 * toU32 T % U256) / toU64 (k * st.2)
        let nextTarget := if nextTarget > powLimit then powLimit else nextTarget
        some (getCompact nextTarget)

/-- The accumulation loop shared by `DarkGravityWave3Nova` and
`DarkGravityWave3`: incrementally-weighted 256-bit mean of the last
`nPastBlocks` targets and the summed inter-block timespan.  State:
`(i, pastDifficultyAverage, actualTimespan, lastBlockTime)`. -/
def dgwGo (nPastBlocks : Nat) : Chain → Nat → Nat → Int → Int → Nat × Int
  | b :: rest, i, avg, actualTimespan, lastBlockTime =>
    if i < nPastBlocks then
      let cur := (setCompact b.nBits).target
      let avg' := if i = 0 then cur else ((avg * i) % U256 + cur) % U256 / (i + 1)
      let ts' := if lastBlockTime > 0 then actualTimespan + (lastBlockTime - b.nTime)
                 else actualTimespan
      dgwGo nPastBlocks rest (i + 1) avg' ts' b.nTime
    else (avg, actualTimespan)
  | [], _, avg, actualTimespan, _ => (avg, actualTimespan)

/-- Median smoothing helper of DGW3-Nova: collect the decoded targets of up
to `count` blocks from the tip (stopping at a null `pprev`). -/
def dgwCollectDiffs (count : Nat) : Chain → List Nat
  | b :: prev :: rest =>
    match count with
    | 0 => []
    | c + 1 => (setCompact b.nBits).target :: dgwCollectDiffs c (prev :: rest)
  | _ => []

/-- `std::sort` then `v[v.size() / 2]`, as DGW3-Nova takes its rolling
medians (`getD` default 0 is never hit on the non-empty vectors the code
builds). -/
def medianAt (l : List Nat) : Nat :=
  (l.mergeSort (· ≤ ·)).getD (l.length / 2) 0

/-- `DarkGravityWave3Nova` (src/pow.cpp).  `none` models the two
non-translatable exits: dereferencing a null `pindexLast->pprev`, and the
graceful-decay branch (`actualSolveTime > nPowTargetSpacing`), whose
`std::pow(·, 0.45)` double arithmetic has no exact integer embedding. -/
def DarkGravityWave3Nova (chain : Chain) (p : ConsensusParams) : Option Nat :=
  match chain with
  | [] => none
  | tip :: rest =>
    let nextHeight := tip.nHeight + 1
    let nPastBlocks : Nat := if nextHeight ≥ p.nextDifficultyFork5Height then 12 else 24
    let limit := if nextHeight ≥ p.yespowerForkHeight then p.powLimitYespower else p.powLimit
    if nextHeight < (nPastBlocks : Int) then some (getCompact limit)
    else
      match rest with
      | [] => none
      | prev :: _ =>
        let st := dgwGo nPastBlocks (tip :: rest) 0 0 0 0
        let pastDifficultyAverage := st.1
        let targetTimespan : Int := (nPastBlocks : Int) * p.nPowTargetSpacing
        let v9 := nextHeight ≥ p.nextDifficultyFork5Height
        let minTimespanClamp := targetTimespan.tdiv 3
        let maxTimespanClamp := targetTimespan * 3
        let emergencyClamp := if v9 then targetTimespan.tdiv 3 else targetTimespan.tdiv 6
        let minSolveClamp := if v9 then targetTimespan.tdiv 4 else targetTimespan.tdiv 8
        let minSolveTime : Int := 12
        let actualSolveTime := tip.nTime - prev.nTime
        let unclamped := st.2
        let triggered :=
          if v9 then actualSolveTime < 2 * minSolveTime ∧ unclamped < targetTimespan.tdiv 6
          else actualSolveTime < minSolveTime ∨ unclamped < targetTimespan.tdiv 6
        let ts1 :=
          if triggered ∧ nextHeight ≥ p.nextDifficultyFork3Height then
            min st.2 (min emergencyClamp minSolveClamp)
          else st.2
        let ts2 :=
          if v9 then
            if ¬triggered then
              max minTimespanClamp (min ts1 maxTimespanClamp)
            else ts1
          else max minTimespanClamp (min ts1 maxTimespanClamp)
        -- `if (nextHeight >= v9 && actualSolveTime > nPowTargetSpacing)` computes a
        -- floating-point decay factor; `nextHeight >= v9` compares the height with
        -- the bool v9 (0 or 1) and holds throughout this branch (nextHeight ≥ 24).
        if actualSolveTime > p.nPowTargetSpacing then none
        else
          let difficultySmoothing :=
            if v9 then medianAt (dgwCollectDiffs (min nPastBlocks 5) (tip :: rest))
            else pastDifficultyAverage
          -- decayFactor = 1.0 here, so the decay-from-baseline branch is not taken.
          let newDifficulty := (difficultySmoothing * toU32 ts2) % U256 / toU64 targetTimespan
          let bnPowLimit := if nextHeight ≥ 1 then p.powLimitYespower else p.powLimit
          let newDifficulty :=
            if nextHeight ≤ 1 ∧ newDifficulty > bnPowLimit then bnPowLimit else newDifficulty
          some (getCompact newDifficulty)

/-- `CBlockIndex::GetAncestor`: walk back from the tip to the entry at the
requested height. -/
def getAncestor (chain : Chain) (h : Int) : Option BlockIndex :=
  match chain with
  | [] => none
  | b :: rest => if b.nHeight = h then some b else getAncestor rest h

/-- `CalculateNextWorkRequired` (src/pow.cpp): Bitcoin-legacy retarget at an
interval boundary.  The final cap compares against `powLimit` (not the
yespower limit, although the code decodes it). -/
def CalculateNextWorkRequired (tip : BlockIndex) (nFirstBlockTime : Int)
    (p : ConsensusParams) : Nat :=
  if p.fPowNoRetargeting then tip.nBits
  else
    let a0 := tip.nTime - nFirstBlockTime
    let a1 := if a0 < p.nPowTargetTimespan.tdiv 4 then p.nPowTargetTimespan.tdiv 4 else a0
    let a2 := if a1 > p.nPowTargetTimespan * 4 then p.nPowTargetTimespan * 4 else a1
    let bnNew := ((setCompact tip.nBits).target * toU32 a2) % U256 / toU64 p.nPowTargetTimespan
    let bnNew := if bnNew > p.powLimit then p.powLimit else bnNew
    getCompact bnNew

/-- The testnet special-rule walk of `GetNextWorkRequired`: step back while
`pprev` exists, the height is off the interval boundary, and the block is at
minimum difficulty. -/
def minDiffWalk (interval : Int) (limitBits : Nat) : Chain → Nat
  | [] => 0
  | [b] => b.nBits
  | b :: prev :: rest =>
    if b.nHeight.tmod interval ≠ 0 ∧ b.nBits = limitBits then
      minDiffWalk interval limitBits (prev :: rest)
    else b.nBits

/-- `GetNextWorkRequired` (src/pow.cpp): the retarget dispatcher.  At next
heights ≥ `nextDifficultyFork2Height` it calls `DarkGravityWave3Nova`;
below that it runs the Bitcoin-legacy rule.  `none` models assertion
failures / null dereference. -/
def GetNextWorkRequired (chain : Chain) (pblock : Header) (p : ConsensusParams) :
    Option Nat :=
  match chain with
  | [] => none
  | tip :: rest =>
    if tip.nHeight + 1 ≥ p.nextDifficultyFork2Height then
      DarkGravityWave3Nova (tip :: rest) p
    else
      let limit := if tip.nHeight + 1 ≥ p.yespowerForkHeight then p.powLimitYespower
                   else p.powLimit
      let nProofOfWorkLimit := getCompact limit
      if (tip.nHeight + 1).tmod (DifficultyAdjustmentInterval p) ≠ 0 then
        if p.fPowAllowMinDifficultyBlocks then
          if pblock.nTime > tip.nTime + p.nPowTargetSpacing * 2 then
            some nProofOfWorkLimit
          else
            some (minDiffWalk (DifficultyAdjustmentInterval p) nProofOfWorkLimit (tip :: rest))
        else some tip.nBits
      else
        let nHeightFirst := tip.nHeight - (DifficultyAdjustmentInterval p - 1)
        if nHeightFirst < 0 then none
        else
          match getAncestor (tip :: rest) nHeightFirst with
          | none => none
          | some first => some (CalculateNextWorkRequired tip first.nTime p)

/-- `CheckProofOfWorkWithHeight` (src/pow.cpp).  `yhash` is the yespower
oracle (`CheckYespower` recomputes the memory-hard hash of the header and
compares it to the target); `shaHash` is the SHA-256d header-hash oracle
used on the sub-fork path. -/
def CheckProofOfWorkWithHeight (yhash : Header → Int → Nat) (shaHash : Header → Nat)
    (hash : Nat) (block : Header) (nBits : Nat) (p : ConsensusParams)
    (nHeight : Int) : Bool :=
  let d := setCompact nBits
  if nHeight = 0 ∨ hash = p.hashGenesisBlock then true
  else if d.negative ∨ d.overflow ∨ d.target = 0 then false
  else if nHeight ≥ 1 then
    if nHeight = 1 then true
    else yhash block nHeight ≤ d.target
  else shaHash block ≤ d.target

/-- `CheckProofOfWork` (src/pow.cpp): height-dispatched PoW validation. -/
def CheckProofOfWork (yhash : Header → Int → Nat) (shaHash : Header → Nat)
    (hash : Nat) (block : Header) (nBits : Nat) (p : ConsensusParams)
    (nHeight : Int) : Bool :=
  if nHeight = 0 then true
  else if nHeight ≥ p.yespowerForkHeight then
    CheckProofOfWorkWithHeight yhash shaHash hash block nBits p nHeight
  else
    let d := setCompact nBits
    if d.negative ∨ d.target = 0 ∨ d.overflow ∨ d.target > p.powLimit then false
    else hash ≤ d.target

/-! ### Concrete PoW inputs used to settle the retarget claims -/

/-- Bitcoin's classic 256-bit limit `0xffff · 2^208` (compact `0x1d00ffff`),
used as a concrete value for both PoW limits. -/
def limitFFFF : Nat := 0xffff * 2 ^ 208

/-- Concrete consensus parameters: LWMA3 window `(10, 10000)`, yespower from
height 1, legacy interval `1200 / 120 = 10`. -/
def c1Params : ConsensusParams :=
  { powLimit := limitFFFF
    powLimitYespower := limitFFFF
    hashGenesisBlock := 42
    yespowerForkHeight := 1
    difficultyForkHeight := 1
    nextDifficultyForkHeight := 10
    nextDifficultyFork2Height := 10000
    nextDifficultyFork3Height := 10000
    nextDifficultyFork5Height := 10000
    nPowTargetSpacing := 120
    nPowTargetTimespan := 1200
    fPowAllowMinDifficultyBlocks := false
    fPowNoRetargeting := false
    nFeeBurnEndHeight := 0 }

/-- A 61-block chain at tip height 100, all timestamps equal (every LWMA3
solve-time is 0) and all blocks at compact bits `0x1c00aaaa`. -/
def c1Rest : Chain :=
  (List.range 60).map (fun i => ⟨99 - (i : Int), 1000, 0x1c00aaaa⟩)

/-- Tip-first chain for the C1 input. -/
def c1Chain : Chain := ⟨100, 1000, 0x1c00aaaa⟩ :: c1Rest

/-- Concrete parameters with DGW3-Nova active everywhere (fork2 = 0) and the
v9/fork-5 refinements inactive (window 24). -/
def c2Params : ConsensusParams :=
  { c1Params with nextDifficultyFork2Height := 0 }

/-- 24 blocks at limit-valued bits; the last solve-time is 120 s and the 22
before it are 360 s each, so the summed timespan (8040 s) stays inside the
[960, 8640] clamp while scaling the average up by ≈ 2.79×. -/
def c2Chain : Chain :=
  ⟨100, 9000, 0x1d00ffff⟩ ::
    (List.range 23).map (fun i => ⟨99 - (i : Int), 8880 - 360 * (i : Int), 0x1d00ffff⟩)

end Interchained

namespace Interchained

set_option maxRecDepth 100000

/-- C1: `GetNextWorkRequired` does not return the LWMA3 target in the claimed
height window: at tip height 100 (window (10, 10000), 60+ blocks of history
past the fork, off the legacy adjustment boundary) it returns the tip's own
bits, while `Lwma3` — whose zero solve-times make its weighted denominator
non-positive — returns the PoW-limit compact, and the two differ. -/
theorem C1_counterexample :
    GetNextWorkRequired c1Chain ⟨1000⟩ c1Params = some 0x1c00aaaa ∧
    Lwma3 c1Chain c1Params = some (getCompact c1Params.powLimitYespower) ∧
    (0x1c00aaaa : Nat) ≠ getCompact c1Params.powLimitYespower ∧
    c1Params.nextDifficultyForkHeight + 60 ≤ 100 + 1 ∧
    100 + 1 < c1Params.nextDifficultyFork2Height := by
  refine ⟨by decide, by decide, by decide, by decide, by decide⟩

/-- C1 (amended): in the claimed window `GetNextWorkRequired` never invokes
the LWMA3 computation — below `nextDifficultyFork2Height`, off the legacy
adjustment boundary and with min-difficulty blocks disabled, it returns the
tip's `nBits` unchanged. -/
theorem C1_amended_thm (tip : BlockIndex) (rest : Chain) (pblock : Header)
    (p : ConsensusParams)
    (h2 : tip.nHeight + 1 < p.nextDifficultyFork2Height)
    (h3 : (tip.nHeight + 1).tmod (DifficultyAdjustmentInterval p) ≠ 0)
    (h4 : p.fPowAllowMinDifficultyBlocks = false) :
    GetNextWorkRequired (tip :: rest) pblock p = some tip.nBits := by
  simp only [GetNextWorkRequired]
  rw [if_neg (not_le.mpr h2), if_pos h3, h4]
  simp

/-- Witness for `C1_amended_thm` at the concrete chain of `C1_counterexample`. -/
theorem C1_amended_witness :
    GetNextWorkRequired (BlockIndex.mk 100 1000 0x1c00aaaa :: c1Rest) ⟨1000⟩ c1Params
      = some 0x1c00aaaa :=
  C1_amended_thm ⟨100, 1000, 0x1c00aaaa⟩ c1Rest ⟨1000⟩ c1Params
    (by decide) (by decide) (by decide)

/-- C2: with DGW3-Nova active (fork2 = 0), yespower active (fork = 1), and a
24-block history whose summed timespan passes the normal clamp, the compact
returned at next height 101 decodes to a target strictly above the active
limit `powLimitYespower`: the cap is gated on `nextHeight <= 1` and never
fires on the main path. -/
theorem C2_counterexample :
    DarkGravityWave3Nova c2Chain c2Params = some 0x1d02caa7 ∧
    (setCompact 0x1d02caa7).target > c2Params.powLimitYespower ∧
    c2Params.nextDifficultyFork2Height ≤ 100 + 1 ∧
    c2Params.yespowerForkHeight ≤ 100 + 1 :=
  ⟨by decide, by decide, by decide, by decide⟩

/-- C2 (amended): `DarkGravityWave3Nova` stays at or below the active limit
only in the short-history regime — when the next height is below the window
(12 past fork 5, else 24) it returns exactly the active limit's compact; past
that, the result is not capped and can exceed the limit (`C2_counterexample`). -/
theorem C2_amended_thm (tip : BlockIndex) (rest : Chain) (p : ConsensusParams)
    (hlt : tip.nHeight + 1 <
      (Nat.cast (if tip.nHeight + 1 ≥ p.nextDifficultyFork5Height then 12 else 24) : Int)) :
    DarkGravityWave3Nova (tip :: rest) p =
      some (getCompact
        (if tip.nHeight + 1 ≥ p.yespowerForkHeight then p.powLimitYespower
         else p.powLimit)) := by
  simp only [DarkGravityWave3Nova]
  rw [if_pos hlt]

/-- Witness for `C2_amended_thm`: at next height 6 (below the 24-window) the
active limit's compact is returned. -/
theorem C2_amended_witness :
    DarkGravityWave3Nova [BlockIndex.mk 5 1000 123] c1Params
      = some (getCompact c1Params.powLimitYespower) :=
  C2_amended_thm ⟨5, 1000, 123⟩ [] c1Params (by decide)

/-- C3: on the memory-hard path there is no above-limit rejection: at height
2 (past the yespower fork), with `nBits = 0x1d02caa7` decoding to a
well-formed target strictly above `powLimitYespower`, `CheckProofOfWork`
accepts whenever the recomputed yespower hash is small enough (oracle 0). -/
theorem C3_counterexample :
    CheckProofOfWork (fun _ _ => 0) (fun _ => 0) 7 ⟨1000⟩ 0x1d02caa7 c1Params 2 = true ∧
    (setCompact 0x1d02caa7).target > c1Params.powLimitYespower ∧
    c1Params.yespowerForkHeight ≤ 2 ∧
    (setCompact 0x1d02caa7).negative = false ∧
    (setCompact 0x1d02caa7).overflow = false ∧
    (setCompact 0x1d02caa7).target ≠ 0 :=
  ⟨by decide, by decide, by decide, by decide, by decide, by decide⟩

/-- C3 (amended): at heights ≥ 2 PoW verification rejects negative, zero or
overflowed targets on both paths (for non-genesis hashes), and rejects
targets above the limit on the SHA-256 path (height below the yespower
fork); on the memory-hard path no above-limit check is made
(`C3_counterexample`). -/
theorem C3_amended_thm (yhash : Header → Int → Nat) (shaHash : Header → Nat)
    (hash : Nat) (block : Header) (nBits : Nat) (p : ConsensusParams)
    (nHeight : Int) (h2 : 2 ≤ nHeight) :
    (nHeight < p.yespowerForkHeight → p.powLimit < (setCompact nBits).target →
      CheckProofOfWork yhash shaHash hash block nBits p nHeight = false) ∧
    (hash ≠ p.hashGenesisBlock →
      ((setCompact nBits).negative = true ∨ (setCompact nBits).overflow = true ∨
        (setCompact nBits).target = 0) →
      CheckProofOfWork yhash shaHash hash block nBits p nHeight = false) := by
  constructor
  · intro hfork htgt
    simp only [CheckProofOfWork]
    rw [if_neg (by omega : ¬ nHeight = 0), if_neg (not_le.mpr hfork),
      if_pos (Or.inr (Or.inr (Or.inr htgt)))]
  · intro hgen hflag
    simp only [CheckProofOfWork, CheckProofOfWorkWithHeight]
    rw [if_neg (by omega : ¬ nHeight = 0)]
    by_cases hfork : p.yespowerForkHeight ≤ nHeight
    · rw [if_pos hfork, if_neg, if_pos]
      · rcases hflag with h | h | h
        · exact Or.inl h
        · exact Or.inr (Or.inl h)
        · exact Or.inr (Or.inr h)
      · rintro (h | h)
        · omega
        · exact hgen h
    · rw [if_neg hfork, if_pos]
      rcases hflag with h | h | h
      · exact Or.inl h
      · exact Or.inr (Or.inr (Or.inl h))
      · exact Or.inr (Or.inl h)

/-- Witness for `C3_amended_thm`: with the yespower fork at height 5, height
2 runs the SHA-256 path and the above-limit target of `C3_counterexample` is
rejected. -/
theorem C3_amended_witness :
    CheckProofOfWork (fun _ _ => 0) (fun _ => 0) 7 ⟨1000⟩ 0x1d02caa7
      { c1Params with yespowerForkHeight := 5 } 2 = false :=
  (C3_amended_thm (fun _ _ => 0) (fun _ => 0) 7 ⟨1000⟩ 0x1d02caa7
    { c1Params with yespowerForkHeight := 5 } 2 (by decide)).1 (by decide) (by decide)

/-! ### Coinbase construction (`BlockAssembler::CreateNewBlock`, src/miner.cpp) -/

/-- Abstract coinbase output script: the default-constructed empty script or
the script paying one of the three protocol destinations. -/
inductive OutScript
  | empty
  | miner
  | gov
  | op
  deriving Repr, DecidableEq

/-- A `CTxOut`: default-constructed outputs carry `nValue = -1` (`SetNull`)
and an empty script, exactly what `vout.resize` fills in. -/
structure CoinbaseOut where
  value : Int
  script : OutScript
  deriving Repr, DecidableEq

/-- `vout[i] = {script, value}`: in-bounds write, `none` on the
out-of-bounds `std::vector::operator[]` (undefined behaviour in C++). -/
def setOut (v : List CoinbaseOut) (i : Nat) (o : CoinbaseOut) : Option (List CoinbaseOut) :=
  if i < v.length then some (v.set i o) else none

/-- `vout[i].nValue = val`, keeping the script already stored there. -/
def setOutValue (v : List CoinbaseOut) (i : Nat) (val : Int) : Option (List CoinbaseOut) :=
  if h : i < v.length then some (v.set i ⟨val, (v.get ⟨i, h⟩).script⟩) else none

/-- The coinbase split of `CreateNewBlock` (src/miner.cpp:379-414): resize to
2 or 3 outputs, pay the miner the remainder, then governance (with the
single-output fallback on an invalid governance address), then the operator.
`govValid`/`hasOpDest` abstract `IsValidDestination(DecodeDestination(·))` on
the configured wallet strings. -/
def buildCoinbaseVout (blockReward : Int) (govValid hasOpDest : Bool) :
    Option (List CoinbaseOut) :=
  let governanceReward := (blockReward * 7300).tdiv 10000
  let operatorReward := if hasOpDest then (blockReward * 500).tdiv 10000 else 0
  let v0 := List.replicate (if hasOpDest then 3 else 2)
    ({ value := -1, script := OutScript.empty } : CoinbaseOut)
  (setOut v0 0 ⟨blockReward - governanceReward - operatorReward, OutScript.miner⟩).bind
    fun v1 =>
      (if govValid then setOut v1 1 ⟨governanceReward, OutScript.gov⟩
       else setOutValue (v1.take 1) 0 blockReward).bind
        fun v2 =>
          if hasOpDest then setOut v2 2 ⟨operatorReward, OutScript.op⟩ else some v2

/-- The coinbase construction including the fee-burn window: the reward is
the subsidy plus the selected fees unless `1 ≤ height ≤ nFeeBurnEndHeight`. -/
def createCoinbaseVout (p : ConsensusParams) (nHeight : Int) (subsidy nFees : Int)
    (govValid hasOpDest : Bool) : Option (List CoinbaseOut) :=
  let burnFees := 1 ≤ nHeight ∧ nHeight ≤ p.nFeeBurnEndHeight
  let blockReward := if burnFees then subsidy else subsidy + nFees
  buildCoinbaseVout blockReward govValid hasOpDest

/-- C4: with an invalid governance address and a valid operator address the
coinbase builder resizes `vout` to one element and then writes `vout[2]` —
an out-of-bounds `std::vector` access (modelled as `none`); the claimed
single-output fallback is produced only when no operator address is
configured. -/
theorem C4_failing_eval :
    createCoinbaseVout c1Params 100 5000000000 100000000 false true = none ∧
    (∀ r : Int, buildCoinbaseVout r false true = none) ∧
    (∀ r : Int, buildCoinbaseVout r false false = some [⟨r, OutScript.miner⟩]) := by
  refine ⟨by decide, fun r => rfl, fun r => rfl⟩

/-- C5: at height 100 with subsidy 50·10⁸, fees 1·10⁸ (outside the burn
window) and valid governance and operator addresses, the outputs are
miner = 11.22·10⁸ (not the claimed 22·10⁸), governance = 37.23·10⁸,
operator = 2.55·10⁸, summing to 51·10⁸. -/
theorem C5_counterexample :
    createCoinbaseVout c1Params 100 5000000000 100000000 true true =
      some [⟨1122000000, OutScript.miner⟩, ⟨3723000000, OutScript.gov⟩,
            ⟨255000000, OutScript.op⟩] ∧
    (1122000000 : Int) ≠ 2200000000 := by
  refine ⟨by decide, by decide⟩

/-- C5 (amended): same input, with the miner output corrected to the actual
remainder 11.22·10⁸; governance is 7300 bps and operator 500 bps of the
51·10⁸ reward, and the three outputs sum to the full reward. -/
theorem C5_amended_thm :
    createCoinbaseVout c1Params 100 5000000000 100000000 true true =
      some [⟨1122000000, OutScript.miner⟩, ⟨3723000000, OutScript.gov⟩,
            ⟨255000000, OutScript.op⟩] ∧
    (1122000000 : Int) + 3723000000 + 255000000 = 5100000000 ∧
    (3723000000 : Int) = ((5100000000 : Int) * 7300).tdiv 10000 ∧
    (255000000 : Int) = ((5100000000 : Int) * 500).tdiv 10000 := by
  refine ⟨by decide, by decide, by decide, by decide⟩

/-! ### Token operations and their wire format
(src/wallet/token.h `TokenOperation::SERIALIZE_METHODS`, src/wallet/token.cpp
`DecodeTokenOp`, `TokenOperationHash`) -/

/-- A C++ `std::string` as a byte sequence. -/
abbrev Str := List Nat

/-- The nine members of `enum class TokenOp : uint8_t`; the field itself is
kept as the raw `uint8_t`, since `static_cast<TokenOp>` admits any byte. -/
def TokenOp.CREATE : Nat := 0
def TokenOp.TRANSFER : Nat := 1
def TokenOp.APPROVE : Nat := 2
def TokenOp.TRANSFERFROM : Nat := 3
def TokenOp.INCREASE_ALLOWANCE : Nat := 4
def TokenOp.DECREASE_ALLOWANCE : Nat := 5
def TokenOp.BURN : Nat := 6
def TokenOp.MINT : Nat := 7
def TokenOp.TRANSFER_OWNERSHIP : Nat := 8

/-- `struct TokenOperation` (src/wallet/token.h).  `wallet_name` is a member
of the struct but is not serialised by `SERIALIZE_METHODS`. -/
structure TokenOperation where
  op : Nat
  fromW : Str
  toW : Str
  spender : Str
  token : Str
  amount : Int
  name : Str
  symbol : Str
  decimals : Nat
  timestamp : Int
  signer : Str
  signature : Str
  wallet_name : Str
  memo : Str
  deriving Repr, DecidableEq

/-- Little-endian byte encoding of a `Nat` on `w` bytes. -/
def toLE : Nat → Nat → List Nat
  | 0, _ => []
  | w + 1, n => n % 256 :: toLE w (n / 256)

/-- Little-endian decoding. -/
def fromLE : List Nat → Nat
  | [] => 0
  | b :: bs => b + 256 * fromLE bs

/-- Serialise a `uint8_t`. -/
def serU8 (n : Nat) : List Nat := [n % 256]

/-- Serialise an `int64_t` (two's complement, little-endian). -/
def serI64 (x : Int) : List Nat := toLE 8 (x.emod (2 ^ 64)).toNat

/-- Bitcoin's `WriteCompactSize`. -/
def serCompactSize (n : Nat) : List Nat :=
  if n < 253 then [n]
  else if n ≤ 0xffff then 253 :: toLE 2 n
  else if n ≤ 0xffffffff then 254 :: toLE 4 n
  else 255 :: toLE 8 n

/-- Serialise a `std::string`: compact-size length, then the raw bytes. -/
def serStr (s : Str) : List Nat := serCompactSize s.length ++ s

/-- The twelve fixed serialised fields (op byte through signature), common to
the current and the legacy wire form.  `wallet_name` is not written. -/
def serTokenFields (o : TokenOperation) : List Nat :=
  serU8 o.op ++ serStr o.fromW ++ serStr o.toW ++ serStr o.spender ++ serStr o.token ++
  serI64 o.amount ++ serStr o.name ++ serStr o.symbol ++ serU8 o.decimals ++
  serI64 o.timestamp ++ serStr o.signer ++ serStr o.signature

/-- `TokenOperation::SERIALIZE_METHODS`, write direction: the fields, then
the memo flag (`!memo.empty()`) and, if set, the memo. -/
def serTokenOperation (o : TokenOperation) : List Nat :=
  serTokenFields o ++ (if o.memo.isEmpty then [0] else 1 :: serStr o.memo)

/-- The legacy wire form without the memo flag: the fields, followed by the
serialised memo only when one is present (`DecodeTokenOp`'s fallback reads a
memo exactly when bytes remain). -/
def serTokenOperationLegacy (o : TokenOperation) : List Nat :=
  serTokenFields o ++ (if o.memo.isEmpty then [] else serStr o.memo)

/-- Read one byte. -/
def readByte : List Nat → Option (Nat × List Nat)
  | [] => none
  | b :: rest => some (b, rest)

/-- Read exactly `n` bytes. -/
def readBytes (n : Nat) (s : List Nat) : Option (List Nat × List Nat) :=
  if n ≤ s.length then some (s.take n, s.drop n) else none

/-- Bitcoin's `ReadCompactSize`: canonical-minimality and the `MAX_SIZE`
(0x02000000) bound are enforced, larger or non-minimal encodings throw. -/
def readCompactSize (s : List Nat) : Option (Nat × List Nat) :=
  (readByte s).bind fun p =>
    let chSize := p.1
    let rest := p.2
    (if chSize < 253 then some (chSize, rest)
     else if chSize = 253 then
       (readBytes 2 rest).bind fun q =>
         if fromLE q.1 < 253 then none else some (fromLE q.1, q.2)
     else if chSize = 254 then
       (readBytes 4 rest).bind fun q =>
         if fromLE q.1 ≤ 0xffff then none else some (fromLE q.1, q.2)
     else
       (readBytes 8 rest).bind fun q =>
         if fromLE q.1 ≤ 0xffffffff then none else some (fromLE q.1, q.2)).bind
      fun r => if r.1 > 0x02000000 then none else some r

/-- Read a `std::string`. -/
def readStr (s : List Nat) : Option (Str × List Nat) :=
  (readCompactSize s).bind fun p => readBytes p.1 p.2

/-- Read an `int64_t`. -/
def readI64 (s : List Nat) : Option (Int × List Nat) :=
  (readBytes 8 s).bind fun p =>
    let n := fromLE p.1
    some (if n < 2 ^ 63 then (n : Int) else (n : Int) - 2 ^ 64, p.2)

/-- The eleven fixed fields shared by both decode paths, deserialised into a
fresh `TokenOperation` (the callers of `DecodeTokenOp` pass a
default-constructed one, so `wallet_name` and, for now, `memo` are empty). -/
def readTokenFields (s : List Nat) : Option (TokenOperation × List Nat) :=
  (readByte s).bind fun a =>
  (readStr a.2).bind fun f =>
  (readStr f.2).bind fun t =>
  (readStr t.2).bind fun sp =>
  (readStr sp.2).bind fun tok =>
  (readI64 tok.2).bind fun am =>
  (readStr am.2).bind fun nm =>
  (readStr nm.2).bind fun sy =>
  (readByte sy.2).bind fun de =>
  (readI64 de.2).bind fun ts =>
  (readStr ts.2).bind fun sg =>
  (readStr sg.2).bind fun sig =>
  some (⟨a.1, f.1, t.1, sp.1, tok.1, am.1, nm.1, sy.1, de.1, ts.1, sg.1, sig.1, [], []⟩,
    sig.2)

/-- `TokenOperation::SERIALIZE_METHODS`, read direction (the current format
with the memo flag): trailing bytes are left unconsumed, as `CDataStream`
extraction does. -/
def deserTokenOperation (s : List Nat) : Option (TokenOperation × List Nat) :=
  (readTokenFields s).bind fun p =>
  (readByte p.2).bind fun fl =>
    if fl.1 ≠ 0 then
      (readStr fl.2).bind fun m => some ({ p.1 with memo := m.1 }, m.2)
    else some (p.1, fl.2)

/-- `DecodeTokenOp`'s legacy fallback: the fields, then a memo exactly when
bytes remain in the stream. -/
def deserTokenOperationLegacy (s : List Nat) : Option (TokenOperation × List Nat) :=
  (readTokenFields s).bind fun p =>
    if p.2.isEmpty then some (p.1, p.2)
    else (readStr p.2).bind fun m => some ({ p.1 with memo := m.1 }, m.2)

/-- `TokenOperationHash`: SHA-256d of the serialised operation with `signer`
and `signature` blanked.  The hash function is modelled collision-free, i.e.
by the serialised byte string itself. -/
def TokenOperationHash (o : TokenOperation) : List Nat :=
  serTokenOperation { o with signer := [], signature := [] }

/-! ### Round-trip lemmas for the wire format -/

theorem toLE_length (w n : Nat) : (toLE w n).length = w := by
  induction w generalizing n with
  | zero => rfl
  | succ w ih => simp [toLE, ih]

theorem fromLE_toLE (w n : Nat) (h : n < 256 ^ w) : fromLE (toLE w n) = n := by
  induction w generalizing n with
  | zero => simp only [pow_zero, Nat.lt_one_iff] at h; simp [toLE, fromLE, h]
  | succ w ih =>
    have hd : n / 256 < 256 ^ w := by
      rw [Nat.div_lt_iff_lt_mul (by norm_num)]
      calc n < 256 ^ (w + 1) := h
        _ = 256 ^ w * 256 := by ring
    simp only [toLE, fromLE, ih _ hd]
    omega

theorem take_append_self (l r : List Nat) : (l ++ r).take l.length = l := by
  induction l with
  | nil => rfl
  | cons a l ih => simp [ih]

theorem drop_append_self (l r : List Nat) : (l ++ r).drop l.length = r := by
  induction l with
  | nil => rfl
  | cons a l ih => simp [ih]

theorem readBytes_append (l r : List Nat) : readBytes l.length (l ++ r) = some (l, r) := by
  have hle : l.length ≤ (l ++ r).length := by simp
  simp [readBytes, hle, take_append_self, drop_append_self]

theorem readByte_serU8 (b : Nat) (h : b < 256) (rest : List Nat) :
    readByte (serU8 b ++ rest) = some (b, rest) := by
  simp [serU8, readByte, Nat.mod_eq_of_lt h]

theorem readCompactSize_ser (n : Nat) (h : n ≤ 0x02000000) (rest : List Nat) :
    readCompactSize (serCompactSize n ++ rest) = some (n, rest) := by
  by_cases h1 : n < 253
  · have h2 : ¬ n > 0x02000000 := by omega
    simp [serCompactSize, readCompactSize, readByte, h1, h2]
  · by_cases h2 : n ≤ 0xffff
    · have e : fromLE (toLE 2 n) = n := fromLE_toLE 2 n (by omega)
      have rb : readBytes 2 (toLE 2 n ++ rest) = some (toLE 2 n, rest) := by
        have := readBytes_append (toLE 2 n) rest
        rwa [toLE_length] at this
      simp [serCompactSize, readCompactSize, readByte, h1, h2, rb, e, h,
        (by omega : ¬ n < 253)]
    · have e : fromLE (toLE 4 n) = n := fromLE_toLE 4 n (by omega)
      have rb : readBytes 4 (toLE 4 n ++ rest) = some (toLE 4 n, rest) := by
        have := readBytes_append (toLE 4 n) rest
        rwa [toLE_length] at this
      simp [serCompactSize, readCompactSize, readByte, h1, h2, rb, e, h,
        (by omega : n ≤ 0xffffffff), (by omega : ¬ n ≤ 0xffff)]

theorem readStr_ser (s : Str) (h : s.length ≤ 0x02000000) (rest : List Nat) :
    readStr (serStr s ++ rest) = some (s, rest) := by
  simp [serStr, readStr, List.append_assoc, readCompactSize_ser s.length h (s ++ rest),
    readBytes_append]

/-- Value of the wrapped 64-bit representative of an in-range `int64_t`. -/
theorem emod_i64_eq (x : Int) (h1 : -2 ^ 63 ≤ x) (h2 : x < 2 ^ 63) :
    x.emod (2 ^ 64) = if 0 ≤ x then x else x + 2 ^ 64 := by
  rcases le_or_lt 0 x with hx | hx
  · rw [if_pos hx]
    exact Int.emod_eq_of_lt hx (by norm_num at h2 ⊢; omega)
  · rw [if_neg (not_le.mpr hx)]
    have hrw : x.emod (2 ^ 64) = (x + 2 ^ 64 * 1).emod (2 ^ 64) :=
      (Int.add_mul_emod_self_left x (2 ^ 64) 1).symm
    rw [hrw, mul_one]
    exact Int.emod_eq_of_lt (by norm_num at h1 ⊢; omega) (by norm_num at h1 h2 ⊢; omega)

theorem readI64_ser (x : Int) (h1 : -2 ^ 63 ≤ x) (h2 : x < 2 ^ 63) (rest : List Nat) :
    readI64 (serI64 x ++ rest) = some (x, rest) := by
  have hm : (x.emod (2 ^ 64)).toNat < 256 ^ 8 := by
    have hlt : x.emod (2 ^ 64) < 2 ^ 64 :=
      Int.emod_lt_of_pos x (by norm_num)
    norm_num at hlt ⊢
    omega
  have rb : readBytes 8 (toLE 8 (x.emod (2 ^ 64)).toNat ++ rest) =
      some (toLE 8 (x.emod (2 ^ 64)).toNat, rest) := by
    have := readBytes_append (toLE 8 (x.emod (2 ^ 64)).toNat) rest
    rwa [toLE_length] at this
  simp only [serI64, readI64, rb, Option.some_bind, fromLE_toLE 8 _ hm]
  rw [emod_i64_eq x h1 h2]
  rcases le_or_lt 0 x with hx | hx
  · rw [if_pos hx]
    refine congrArg (fun z => some (z, rest)) ?_
    rw [if_pos (by norm_num at h2 ⊢; omega)]
    omega
  · rw [if_neg (not_le.mpr hx)]
    refine congrArg (fun z => some (z, rest)) ?_
    rw [if_neg (by norm_num at h1 ⊢; omega)]
    push_cast
    norm_num at h1 ⊢
    omega

theorem readTokenFields_ser (o : TokenOperation) (rest : List Nat)
    (hop : o.op < 256) (hdec : o.decimals < 256)
    (ham1 : -2 ^ 63 ≤ o.amount) (ham2 : o.amount < 2 ^ 63)
    (hts1 : -2 ^ 63 ≤ o.timestamp) (hts2 : o.timestamp < 2 ^ 63)
    (hf : o.fromW.length ≤ 0x02000000) (ht : o.toW.length ≤ 0x02000000)
    (hsp : o.spender.length ≤ 0x02000000) (htk : o.token.length ≤ 0x02000000)
    (hn : o.name.length ≤ 0x02000000) (hsy : o.symbol.length ≤ 0x02000000)
    (hsg : o.signer.length ≤ 0x02000000) (hsig : o.signature.length ≤ 0x02000000) :
    readTokenFields (serTokenFields o ++ rest) =
      some (⟨o.op, o.fromW, o.toW, o.spender, o.token, o.amount, o.name, o.symbol,
        o.decimals, o.timestamp, o.signer, o.signature, [], []⟩, rest) := by
  simp only [serTokenFields, List.append_assoc, readTokenFields,
    readByte_serU8 _ hop, readStr_ser _ hf, readStr_ser _ ht, readStr_ser _ hsp,
    readStr_ser _ htk, readI64_ser _ ham1 ham2, readStr_ser _ hn, readStr_ser _ hsy,
    readByte_serU8 _ hdec, readI64_ser _ hts1 hts2, readStr_ser _ hsg,
    readStr_ser _ hsig, Option.some_bind]

/-- Well-formedness of a `TokenOperation` as C++ data: byte-sized `op` and
`decimals`, `int64` amounts/timestamps, and string lengths within the
serialiser's `MAX_SIZE`. -/
def TokenOperation.WF (o : TokenOperation) : Prop :=
  o.op < 256 ∧ o.decimals < 256 ∧
  -2 ^ 63 ≤ o.amount ∧ o.amount < 2 ^ 63 ∧ -2 ^ 63 ≤ o.timestamp ∧ o.timestamp < 2 ^ 63 ∧
  o.fromW.length ≤ 0x02000000 ∧ o.toW.length ≤ 0x02000000 ∧
  o.spender.length ≤ 0x02000000 ∧ o.token.length ≤ 0x02000000 ∧
  o.name.length ≤ 0x02000000 ∧ o.symbol.length ≤ 0x02000000 ∧
  o.signer.length ≤ 0x02000000 ∧ o.signature.length ≤ 0x02000000 ∧
  o.memo.length ≤ 0x02000000

instance : DecidablePred TokenOperation.WF := fun o => by
  unfold TokenOperation.WF; infer_instance

/-- `WriteCompactSize` always emits at least one byte. -/
theorem serCompactSize_ne_nil (n : Nat) : serCompactSize n ≠ [] := by
  simp only [serCompactSize]
  split
  · simp
  · split
    · simp
    · split <;> simp

/-- A serialised string is never the empty stream. -/
theorem serStr_isEmpty (s : Str) : (serStr s).isEmpty = false := by
  cases hcs : serCompactSize s.length with
  | nil => exact absurd hcs (serCompactSize_ne_nil _)
  | cons a l => simp [serStr, hcs]

theorem serStr_ne_nil (s : Str) : serStr s ≠ [] := by
  intro h
  have := serStr_isEmpty s
  rw [h] at this
  simp at this

/-- A concrete operation whose `wallet_name` member is set: the round trip
drops it. -/
def c9op : TokenOperation :=
  ⟨1, [10], [11], [], [12], 5, [], [], 8, 1234, [10], [13, 14], [119], []⟩

/-- C9: serialise-then-deserialise is not the identity on `TokenOperation`:
the struct's `wallet_name` member is not serialised and decodes to the empty
string, so an operation with a non-empty `wallet_name` ([119] here) comes
back different. -/
theorem C9_counterexample :
    deserTokenOperation (serTokenOperation c9op) =
      some ({ c9op with wallet_name := [] }, []) ∧
    ({ c9op with wallet_name := [] }) ≠ c9op :=
  ⟨by decide, by decide⟩

/-- C9 (amended): for well-formed operations, serialise-then-deserialise in
the current memo-flag format and in the legacy no-memo-flag format each
restore every serialised field — the result is the operation with
`wallet_name` (a local, unserialised member) cleared — and, with an empty
memo, the operation hash computed after either round trip equals the hash of
the original operation. -/
theorem C9_amended_thm (o : TokenOperation) (h : o.WF) :
    deserTokenOperation (serTokenOperation o) = some ({ o with wallet_name := [] }, []) ∧
    deserTokenOperationLegacy (serTokenOperationLegacy o) =
      some ({ o with wallet_name := [] }, []) ∧
    (o.memo = [] →
      TokenOperationHash { o with wallet_name := [] } = TokenOperationHash o) := by
  obtain ⟨hop, hdec, ham1, ham2, hts1, hts2, hf, ht, hsp, htk, hn, hsy, hsg, hsig, hmm⟩ := h
  have hfields := fun rest => readTokenFields_ser o rest hop hdec ham1 ham2 hts1 hts2
    hf ht hsp htk hn hsy hsg hsig
  refine ⟨?_, ?_, ?_⟩
  · by_cases hm : o.memo.isEmpty
    · have hme : o.memo = [] := by simpa using hm
      simp [serTokenOperation, hm, deserTokenOperation, hfields, readByte, hme]
    · have hrs : readStr (serStr o.memo ++ []) = some (o.memo, []) := readStr_ser _ hmm []
      rw [List.append_nil] at hrs
      simp [serTokenOperation, hm, deserTokenOperation, hfields, readByte, hrs]
  · by_cases hm : o.memo.isEmpty
    · have hme : o.memo = [] := by simpa using hm
      have hf0 := hfields []
      rw [List.append_nil] at hf0
      simp [serTokenOperationLegacy, hm, deserTokenOperationLegacy, hf0, hme]
    · have hrs : readStr (serStr o.memo ++ []) = some (o.memo, []) := readStr_ser _ hmm []
      rw [List.append_nil] at hrs
      simp only [serTokenOperationLegacy, hm, if_neg, deserTokenOperationLegacy,
        hfields, Option.some_bind, serStr_isEmpty, Bool.false_eq_true, hrs]
      simp [hrs]
      exact fun hh => absurd hh (serStr_ne_nil o.memo)
  · intro _
    simp [TokenOperationHash, serTokenOperation, serTokenFields]

/-- Witness for `C9_amended_thm` at a concrete operation (the `c9op` data
with `wallet_name` already empty), with a non-trivial memo exercising both
formats. -/
theorem C9_amended_witness :
    deserTokenOperation (serTokenOperation { c9op with wallet_name := [] }) =
      some ({ c9op with wallet_name := [] }, []) ∧
    deserTokenOperationLegacy (serTokenOperationLegacy { c9op with wallet_name := [] }) =
      some ({ c9op with wallet_name := [] }, []) ∧
    (({ c9op with wallet_name := [] } : TokenOperation).memo = [] →
      TokenOperationHash { c9op with wallet_name := [] } =
        TokenOperationHash { c9op with wallet_name := [] }) := by
  have := C9_amended_thm { c9op with wallet_name := [] } (by decide)
  simpa using this

/-! ### Token ledger state machine (src/wallet/token.cpp)

`std::map` containers are embedded as association lists; `find` is
`alookup`, `operator[]`'s default-insertion is `aensure`, assignment through
`operator[]` is `aset`.  External signature verification
(`TokenLedger::VerifySignature`, which calls out to `MessageVerify`) is an
oracle parameter, and the governance-fee wallet transaction
(`SendGovernanceFee`) a boolean outcome parameter. -/

section AssocMap

variable {α β : Type} [DecidableEq α]

/-- `std::map::find`. -/
def alookup : List (α × β) → α → Option β
  | [], _ => none
  | (k, v) :: rest, key => if k = key then some v else alookup rest key

/-- Assignment through `std::map::operator[]`. -/
def aset : List (α × β) → α → β → List (α × β)
  | [], key, val => [(key, val)]
  | (k, v) :: rest, key, val =>
    if k = key then (k, val) :: rest else (k, v) :: aset rest key val

/-- `std::map::erase` by key. -/
def aerase : List (α × β) → α → List (α × β)
  | [], _ => []
  | (k, v) :: rest, key => if k = key then rest else (k, v) :: aerase rest key

/-- Lookup with the container's default value. -/
def agetD (m : List (α × β)) (key : α) (d : β) : β := (alookup m key).getD d

/-- `std::map::operator[]`'s default-insertion of an absent key. -/
def aensure (m : List (α × β)) (key : α) (d : β) : List (α × β) :=
  match alookup m key with
  | some _ => m
  | none => m ++ [(key, d)]

theorem alookup_aset_self (m : List (α × β)) (k : α) (v : β) :
    alookup (aset m k v) k = some v := by
  induction m with
  | nil => simp [aset, alookup]
  | cons p rest ih =>
    obtain ⟨pk, pv⟩ := p
    by_cases h : pk = k
    · simp [aset, h, alookup]
    · simp [aset, h, alookup, ih]

theorem alookup_aset_ne (m : List (α × β)) (k k' : α) (v : β) (h : k ≠ k') :
    alookup (aset m k v) k' = alookup m k' := by
  induction m with
  | nil => simp [aset, alookup, h]
  | cons p rest ih =>
    obtain ⟨pk, pv⟩ := p
    by_cases hpk : pk = k
    · subst hpk
      simp [aset, alookup, h]
    · simp [aset, hpk, alookup, ih]

theorem agetD_aset_self (m : List (α × β)) (k : α) (v d : β) :
    agetD (aset m k v) k d = v := by
  simp [agetD, alookup_aset_self]

theorem agetD_aset_ne (m : List (α × β)) (k k' : α) (v d : β) (h : k ≠ k') :
    agetD (aset m k v) k' d = agetD m k' d := by
  simp [agetD, alookup_aset_ne m k k' v h]

theorem alookup_append (m l : List (α × β)) (k : α) :
    alookup (m ++ l) k =
      match alookup m k with
      | some v => some v
      | none => alookup l k := by
  induction m with
  | nil => simp [alookup]
  | cons p rest ih =>
    obtain ⟨pk, pv⟩ := p
    by_cases h : pk = k <;> simp [alookup, h, ih]

theorem agetD_aensure (m : List (α × β)) (k k' : α) (d : β) :
    agetD (aensure m k d) k' d = agetD m k' d := by
  unfold aensure
  cases hm : alookup m k with
  | some v => rfl
  | none =>
    unfold agetD
    rw [alookup_append]
    cases hm' : alookup m k' with
    | some v => rfl
    | none =>
      by_cases h : k = k'
      · subst h
        simp [alookup]
      · simp [alookup, h]

end AssocMap

/-- `TokenMeta` (src/wallet/token.h). -/
structure TokenMeta where
  name : Str
  symbol : Str
  decimals : Nat
  operator_wallet : Str
  creation_height : Int
  deriving Repr, DecidableEq

/-- The in-memory `TokenLedger` maps plus the fee fields the embedded code
touches; operation hashes are the (collision-free-modelled) values of
`TokenOperationHash`. -/
structure LedgerState where
  balances : List ((Str × Str) × Int)
  allowances : List ((Str × Str × Str) × Int)
  totalSupply : List (Str × Int)
  token_meta : List (Str × TokenMeta)
  seen_ops : List (List Nat)
  history : List (Str × List TokenOperation)
  governance_fees : Int
  fee_per_vbyte : Int
  create_fee_per_vbyte : Int
  deriving Repr, DecidableEq

/-- `TokenLedger::CreateToken`: credit balance and supply unconditionally,
register metadata only when the token has none yet. -/
def CreateToken (st : LedgerState) (wallet token : Str) (amount : Int)
    (name symbol : Str) (decimals : Nat) (height : Int) : LedgerState :=
  let bals := aset st.balances (wallet, token) (agetD st.balances (wallet, token) 0 + amount)
  let st1 := { st with balances := bals }
  let sup := aset st1.totalSupply token (agetD st1.totalSupply token 0 + amount)
  let st2 := { st1 with totalSupply := sup }
  if (alookup st2.token_meta token).isNone then
    { st2 with token_meta := aset st2.token_meta token ⟨name, symbol, decimals, wallet, height⟩ }
  else st2

/-- `TokenLedger::Transfer`: `m_balances[{from,token}]` default-inserts the
sender's entry before the balance check. -/
def Transfer (st : LedgerState) (fromW toW token : Str) (amount : Int) :
    Bool × LedgerState :=
  let bals := aensure st.balances (fromW, token) 0
  let from_bal := agetD bals (fromW, token) 0
  if from_bal < amount then (false, { st with balances := bals })
  else
    let bals1 := aset bals (fromW, token) (from_bal - amount)
    let bals2 := aset bals1 (toW, token) (agetD bals1 (toW, token) 0 + amount)
    (true, { st with balances := bals2 })

/-- `TokenLedger::TransferFrom`. -/
def TransferFrom (st : LedgerState) (spender fromW toW token : Str) (amount : Int) :
    Bool × LedgerState :=
  match alookup st.allowances (fromW, spender, token) with
  | none => (false, st)
  | some allow =>
    if allow < amount then (false, st)
    else
      let bals := aensure st.balances (fromW, token) 0
      let from_bal := agetD bals (fromW, token) 0
      if from_bal < amount then (false, { st with balances := bals })
      else
        let bals1 := aset bals (fromW, token) (from_bal - amount)
        let bals2 := aset bals1 (toW, token) (agetD bals1 (toW, token) 0 + amount)
        let allows := aset st.allowances (fromW, spender, token) (allow - amount)
        (true, { st with balances := bals2, allowances := allows })

/-- `TokenLedger::Burn`. -/
def Burn (st : LedgerState) (wallet token : Str) (amount : Int) :
    Bool × LedgerState :=
  if (alookup st.token_meta token).isNone then (false, st)
  else
    let bals := aensure st.balances (wallet, token) 0
    let bal := agetD bals (wallet, token) 0
    if bal < amount then (false, { st with balances := bals })
    else
      let bals1 := aset bals (wallet, token) (bal - amount)
      let sup := aset st.totalSupply token (agetD st.totalSupply token 0 - amount)
      (true, { st with balances := bals1, totalSupply := sup })

/-- `TokenLedger::Mint` (the operator check lives at the dispatch site). -/
def Mint (st : LedgerState) (wallet token : Str) (amount : Int) :
    Bool × LedgerState :=
  if (alookup st.token_meta token).isNone then (false, st)
  else
    let bals := aset st.balances (wallet, token) (agetD st.balances (wallet, token) 0 + amount)
    let sup := aset st.totalSupply token (agetD st.totalSupply token 0 + amount)
    (true, { st with balances := bals, totalSupply := sup })

/-- `TokenLedger::TransferOwnership`. -/
def TransferOwnership (st : LedgerState) (fromW toW token : Str) :
    Bool × LedgerState :=
  match alookup st.token_meta token with
  | none => (false, st)
  | some meta =>
    if meta.operator_wallet ≠ fromW then (false, st)
    else
      let tm := aset st.token_meta token { meta with operator_wallet := toW }
      (true, { st with token_meta := tm })

/-- `TokenLedger::Approve` (overwrite). -/
def Approve (st : LedgerState) (owner spender token : Str) (amount : Int) : LedgerState :=
  { st with allowances := aset st.allowances (owner, spender, token) amount }

/-- `TokenLedger::IncreaseAllowance`. -/
def IncreaseAllowance (st : LedgerState) (owner spender token : Str) (amount : Int) :
    LedgerState :=
  let key := (owner, spender, token)
  { st with allowances := aset st.allowances key (agetD st.allowances key 0 + amount) }

/-- `TokenLedger::DecreaseAllowance`: default-inserts, then erases at or
below zero. -/
def DecreaseAllowance (st : LedgerState) (owner spender token : Str) (amount : Int) :
    LedgerState :=
  let key := (owner, spender, token)
  let al := aensure st.allowances key 0
  let v := agetD al key 0
  if v ≤ amount then { st with allowances := aerase al key }
  else { st with allowances := aset al key (v - amount) }

/-- The shared `switch (op.op)` of `ApplyOperation` and `ReplayOperation`,
including the BURN/MINT guards written at the dispatch site.  An op byte
outside 0..8 matches no case and falls through with `ok = true`. -/
def dispatchOp (st : LedgerState) (op : TokenOperation) (height : Int) :
    Bool × LedgerState :=
  if op.op = TokenOp.CREATE then
    (true, CreateToken st op.fromW op.token op.amount op.name op.symbol op.decimals height)
  else if op.op = TokenOp.TRANSFER then Transfer st op.fromW op.toW op.token op.amount
  else if op.op = TokenOp.APPROVE then (true, Approve st op.fromW op.toW op.token op.amount)
  else if op.op = TokenOp.TRANSFERFROM then
    TransferFrom st op.spender op.fromW op.toW op.token op.amount
  else if op.op = TokenOp.INCREASE_ALLOWANCE then
    (true, IncreaseAllowance st op.fromW op.toW op.token op.amount)
  else if op.op = TokenOp.DECREASE_ALLOWANCE then
    (true, DecreaseAllowance st op.fromW op.toW op.token op.amount)
  else if op.op = TokenOp.BURN then
    if (alookup st.token_meta op.token).isNone then (false, st)
    else Burn st op.fromW op.token op.amount
  else if op.op = TokenOp.MINT then
    match alookup st.token_meta op.token with
    | none => (false, st)
    | some meta =>
      if meta.operator_wallet ≠ op.fromW then (false, st)
      else Mint st op.fromW op.token op.amount
  else if op.op = TokenOp.TRANSFER_OWNERSHIP then
    TransferOwnership st op.fromW op.toW op.token
  else (true, st)

/-- Append to `m_history[op.token]`. -/
def pushHistory (st : LedgerState) (op : TokenOperation) : LedgerState :=
  { st with history := aset st.history op.token (agetD st.history op.token [] ++ [op]) }

/-- `TokenLedger::ApplyOperation`: signature oracle, replay protection
(inserting into `m_seen_ops` before dispatch), dispatch, then on success the
governance fee (oracle `feeSent` for `SendGovernanceFee`'s outcome) and the
history append.  `chainHeight` stands for `::ChainActive().Height()`. -/
def ApplyOperation (sigOk : TokenOperation → Bool) (feeSent : Bool) (chainHeight : Int)
    (st : LedgerState) (op : TokenOperation) (wallet_name : Str) (broadcast : Bool) :
    Bool × LedgerState :=
  if ¬ sigOk op then (false, st)
  else if TokenOperationHash op ∈ st.seen_ops then (false, st)
  else
    let st1 := { st with seen_ops := st.seen_ops ++ [TokenOperationHash op] }
    let r := dispatchOp st1 op chainHeight
    if r.1 then
      let vsize : Int := (serTokenOperation op).length
      let rate := if op.op = TokenOp.CREATE then r.2.create_fee_per_vbyte
                  else r.2.fee_per_vbyte
      let fee0 := vsize * rate
      let fee := if fee0 < 7500000 then 7500000 else fee0
      let st3 := if broadcast ∧ wallet_name ≠ [] ∧ feeSent then
          { r.2 with governance_fees := r.2.governance_fees + fee }
        else r.2
      (true, pushHistory st3 op)
    else (false, r.2)

/-- `TokenLedger::ReplayOperation`: as Apply without fee, broadcast or
on-chain recording. -/
def ReplayOperation (sigOk : TokenOperation → Bool) (st : LedgerState)
    (op : TokenOperation) (height : Int) : Bool × LedgerState :=
  if ¬ sigOk op then (false, st)
  else if TokenOperationHash op ∈ st.seen_ops then (false, st)
  else
    let st1 := { st with seen_ops := st.seen_ops ++ [TokenOperationHash op] }
    let r := dispatchOp st1 op height
    if r.1 then (true, pushHistory r.2 op) else (false, r.2)

/-- The §4.D precondition violations of the error-handling claims:
insufficient balance (TRANSFER, BURN, TRANSFERFROM), insufficient or absent
allowance (TRANSFERFROM), missing metadata (BURN, MINT,
TRANSFER_OWNERSHIP), and a non-operator sender (MINT, TRANSFER_OWNERSHIP). -/
def violates (st : LedgerState) (op : TokenOperation) : Bool :=
  (op.op == TokenOp.TRANSFER &&
    decide (agetD st.balances (op.fromW, op.token) 0 < op.amount)) ||
  (op.op == TokenOp.BURN &&
    ((alookup st.token_meta op.token).isNone ||
      decide (agetD st.balances (op.fromW, op.token) 0 < op.amount))) ||
  (op.op == TokenOp.TRANSFERFROM &&
    ((match alookup st.allowances (op.fromW, op.spender, op.token) with
      | none => true
      | some a => decide (a < op.amount)) ||
     decide (agetD st.balances (op.fromW, op.token) 0 < op.amount))) ||
  (op.op == TokenOp.MINT &&
    (match alookup st.token_meta op.token with
     | none => true
     | some m => m.operator_wallet != op.fromW)) ||
  (op.op == TokenOp.TRANSFER_OWNERSHIP &&
    (match alookup st.token_meta op.token with
     | none => true
     | some m => m.operator_wallet != op.fromW))

/-! ### Concrete ledger inputs -/

def tokA : Str := [1]
def alice : Str := [10]
def bob : Str := [11]

/-- Metadata already registered for `tokA`, operated by `alice`. -/
def meta7 : TokenMeta := ⟨[2], [3], 8, alice, 5⟩

/-- A ledger in which `tokA` already has metadata. -/
def st7 : LedgerState := ⟨[], [], [], [(tokA, meta7)], [], [], 0, 10000, 10000000⟩

/-- A CREATE of the already-registered `tokA`. -/
def op7 : TokenOperation :=
  ⟨TokenOp.CREATE, alice, [], [], tokA, 5, [2], [3], 8, 99, alice, [7], [], []⟩

/-- The empty ledger. -/
def st8 : LedgerState := ⟨[], [], [], [], [], [], 0, 10000, 10000000⟩

/-- A TRANSFER of 1 from a wallet with no balance. -/
def op8 : TokenOperation :=
  ⟨TokenOp.TRANSFER, alice, bob, [], tokA, 1, [], [], 0, 99, alice, [7], [], []⟩

/-- A TRANSFER of −5 from a wallet with no balance. -/
def op10 : TokenOperation :=
  ⟨TokenOp.TRANSFER, alice, bob, [], tokA, -5, [], [], 0, 99, alice, [7], [], []⟩

/-- The CREATE branch of the operation switch. -/
theorem dispatchOp_create (st : LedgerState) (op : TokenOperation) (height : Int)
    (hop : op.op = TokenOp.CREATE) :
    dispatchOp st op height =
      (true, CreateToken st op.fromW op.token op.amount op.name op.symbol
        op.decimals height) := by
  simp [dispatchOp, hop]

/-- Effects of `CreateToken` on a token whose metadata already exists. -/
theorem CreateToken_existing (st : LedgerState) (wallet token : Str) (amount : Int)
    (name symbol : Str) (decimals : Nat) (height : Int)
    (hmeta : (alookup st.token_meta token).isSome = true) :
    (CreateToken st wallet token amount name symbol decimals height).token_meta
        = st.token_meta ∧
    agetD (CreateToken st wallet token amount name symbol decimals height).balances
        (wallet, token) 0 = agetD st.balances (wallet, token) 0 + amount ∧
    agetD (CreateToken st wallet token amount name symbol decimals height).totalSupply
        token 0 = agetD st.totalSupply token 0 + amount ∧
    (CreateToken st wallet token amount name symbol decimals height).history
        = st.history ∧
    (CreateToken st wallet token amount name symbol decimals height).seen_ops
        = st.seen_ops := by
  have hnone : (alookup st.token_meta token).isNone = false := by
    cases h : alookup st.token_meta token with
    | none => rw [h] at hmeta; simp at hmeta
    | some v => simp
  simp [CreateToken, hnone, agetD_aset_self]

/-- C7: a CREATE whose token already has metadata does not fail: both
`ApplyOperation` and `ReplayOperation` succeed, the balance is credited and
the supply increased by the operation amount, and the operation is appended
to the history; only the metadata overwrite is suppressed. -/
theorem C7_amended_thm (sigOk : TokenOperation → Bool) (feeSent : Bool)
    (chainHeight : Int) (st : LedgerState) (op : TokenOperation)
    (wallet_name : Str) (broadcast : Bool)
    (hop : op.op = TokenOp.CREATE)
    (hsig : sigOk op = true)
    (hseen : TokenOperationHash op ∉ st.seen_ops)
    (hmeta : (alookup st.token_meta op.token).isSome = true) :
    ((ApplyOperation sigOk feeSent chainHeight st op wallet_name broadcast).1 = true ∧
     (ReplayOperation sigOk st op chainHeight).1 = true) ∧
    ((ApplyOperation sigOk feeSent chainHeight st op wallet_name broadcast).2.token_meta
        = st.token_meta ∧
     (ReplayOperation sigOk st op chainHeight).2.token_meta = st.token_meta) ∧
    agetD (ApplyOperation sigOk feeSent chainHeight st op wallet_name broadcast).2.balances
        (op.fromW, op.token) 0 = agetD st.balances (op.fromW, op.token) 0 + op.amount ∧
    agetD (ApplyOperation sigOk feeSent chainHeight st op wallet_name broadcast).2.totalSupply
        op.token 0 = agetD st.totalSupply op.token 0 + op.amount ∧
    agetD (ApplyOperation sigOk feeSent chainHeight st op wallet_name broadcast).2.history
        op.token [] = agetD st.history op.token [] ++ [op] := by
  have hd := dispatchOp_create
    { st with seen_ops := st.seen_ops ++ [TokenOperationHash op] } op chainHeight hop
  have hc := CreateToken_existing
    { st with seen_ops := st.seen_ops ++ [TokenOperationHash op] } op.fromW op.token
    op.amount op.name op.symbol op.decimals chainHeight (by simpa using hmeta)
  obtain ⟨hc1, hc2, hc3, hc4, hc5⟩ := hc
  simp only [ApplyOperation, ReplayOperation, hsig, not_true, if_false, ite_not,
    if_neg hseen, hd, ite_true, pushHistory]
  refine ⟨⟨trivial, trivial⟩, ⟨?_, ?_⟩, ?_, ?_, ?_⟩
  · simp only [apply_ite LedgerState.token_meta]
    simp [hc1]
  · simp [hc1]
  · simp only [apply_ite LedgerState.balances]
    simp [hc2]
  · simp only [apply_ite LedgerState.totalSupply]
    simp [hc3]
  · simp only [apply_ite LedgerState.history]
    simp [hc4, agetD_aset_self]

/-- C7 counterexample data: `ApplyOperation`/`ReplayOperation` on `st7`
(metadata already registered for `tokA`) succeed and mutate the ledger,
refuting the claimed failure. -/
theorem C7_counterexample :
    (ApplyOperation (fun _ => true) false 50 st7 op7 [] false).1 = true ∧
    (ReplayOperation (fun _ => true) st7 op7 50).1 = true ∧
    agetD (ApplyOperation (fun _ => true) false 50 st7 op7 [] false).2.balances
      (alice, tokA) 0 = 5 ∧
    agetD st7.balances (alice, tokA) 0 = 0 ∧
    agetD (ApplyOperation (fun _ => true) false 50 st7 op7 [] false).2.totalSupply
      tokA 0 = 5 ∧
    agetD (ApplyOperation (fun _ => true) false 50 st7 op7 [] false).2.history
      tokA [] = [op7] ∧
    agetD st7.history tokA [] = [] ∧
    alookup st7.token_meta tokA = some meta7 := by
  refine ⟨by decide, by decide, by decide, by decide, by decide, by decide,
    by decide, by decide⟩

/-- Witness for `C7_amended_thm` at the `st7`/`op7` input. -/
theorem C7_amended_witness :
    ((ApplyOperation (fun _ => true) false 50 st7 op7 [] false).1 = true ∧
     (ReplayOperation (fun _ => true) st7 op7 50).1 = true) ∧
    ((ApplyOperation (fun _ => true) false 50 st7 op7 [] false).2.token_meta
        = st7.token_meta ∧
     (ReplayOperation (fun _ => true) st7 op7 50).2.token_meta = st7.token_meta) ∧
    agetD (ApplyOperation (fun _ => true) false 50 st7 op7 [] false).2.balances
        (op7.fromW, op7.token) 0 = agetD st7.balances (op7.fromW, op7.token) 0 + op7.amount ∧
    agetD (ApplyOperation (fun _ => true) false 50 st7 op7 [] false).2.totalSupply
        op7.token 0 = agetD st7.totalSupply op7.token 0 + op7.amount ∧
    agetD (ApplyOperation (fun _ => true) false 50 st7 op7 [] false).2.history
        op7.token [] = agetD st7.history op7.token [] ++ [op7] :=
  C7_amended_thm (fun _ => true) false 50 st7 op7 [] false (by decide) (by decide)
    (by decide) (by decide)

/-- The post-failure state: replay protection recorded, balances possibly
extended by default-inserted zero entries. -/
def failState (st : LedgerState) (op : TokenOperation)
    (bals' : List ((Str × Str) × Int)) : LedgerState :=
  { st with seen_ops := st.seen_ops ++ [TokenOperationHash op], balances := bals' }

theorem ApplyOperation_fail (sigOk : TokenOperation → Bool) (feeSent : Bool)
    (chainHeight : Int) (st : LedgerState) (op : TokenOperation) (wallet_name : Str)
    (broadcast : Bool) (bals' : List ((Str × Str) × Int))
    (hsig : sigOk op = true) (hseen : TokenOperationHash op ∉ st.seen_ops)
    (hd : dispatchOp { st with seen_ops := st.seen_ops ++ [TokenOperationHash op] }
        op chainHeight =
      (false, failState st op bals')) :
    ApplyOperation sigOk feeSent chainHeight st op wallet_name broadcast =
      (false, failState st op bals') := by
  simp only [ApplyOperation, hsig, not_true, if_false, ite_not, if_neg hseen, failState, hd]
  simp [failState]

/-- C8: an operation violating a §4.D precondition fails, leaving balances
(as a function), allowances, supply, metadata, history and fees unchanged —
but the operation's hash is nonetheless recorded in the replay-protection
set `m_seen_ops` (and a default zero balance entry may be created), so the
entire state is not unchanged. -/
theorem C8_amended_thm (sigOk : TokenOperation → Bool) (feeSent : Bool)
    (chainHeight : Int) (st : LedgerState) (op : TokenOperation)
    (wallet_name : Str) (broadcast : Bool)
    (hsig : sigOk op = true)
    (hseen : TokenOperationHash op ∉ st.seen_ops)
    (hviol : violates st op = true) :
    (ApplyOperation sigOk feeSent chainHeight st op wallet_name broadcast).1 = false ∧
    (∀ k, agetD (ApplyOperation sigOk feeSent chainHeight st op wallet_name broadcast).2.balances
        k 0 = agetD st.balances k 0) ∧
    (ApplyOperation sigOk feeSent chainHeight st op wallet_name broadcast).2.allowances
        = st.allowances ∧
    (ApplyOperation sigOk feeSent chainHeight st op wallet_name broadcast).2.totalSupply
        = st.totalSupply ∧
    (ApplyOperation sigOk feeSent chainHeight st op wallet_name broadcast).2.token_meta
        = st.token_meta ∧
    (ApplyOperation sigOk feeSent chainHeight st op wallet_name broadcast).2.history
        = st.history ∧
    (ApplyOperation sigOk feeSent chainHeight st op wallet_name broadcast).2.governance_fees
        = st.governance_fees ∧
    (ApplyOperation sigOk feeSent chainHeight st op wallet_name broadcast).2.seen_ops
        = st.seen_ops ++ [TokenOperationHash op] := by
  have key : ∃ bals',
      (dispatchOp { st with seen_ops := st.seen_ops ++ [TokenOperationHash op] }
          op chainHeight =
        (false, failState st op bals')) ∧
      ∀ k, agetD bals' k 0 = agetD st.balances k 0 := by
    simp only [violates, Bool.or_eq_true, Bool.and_eq_true, beq_iff_eq,
      decide_eq_true_eq] at hviol
    rcases hviol with ((((⟨hop1, hbal⟩ | ⟨hop1, hburn⟩) | ⟨hop1, htf⟩) | ⟨hop1, hmint⟩) | ⟨hop1, hto⟩)
    · refine ⟨aensure st.balances (op.fromW, op.token) 0, ?_, fun k => agetD_aensure _ _ _ _⟩
      simp [failState, dispatchOp, hop1, TokenOp.CREATE, TokenOp.TRANSFER, Transfer,
        agetD_aensure, hbal]
    · rcases hburn with hmiss | hbal
      · refine ⟨st.balances, ?_, fun k => rfl⟩
        simp [failState, dispatchOp, hop1, TokenOp.CREATE, TokenOp.TRANSFER, TokenOp.APPROVE,
          TokenOp.TRANSFERFROM, TokenOp.INCREASE_ALLOWANCE, TokenOp.DECREASE_ALLOWANCE,
          TokenOp.BURN, hmiss]
      · by_cases hmiss : (alookup st.token_meta op.token).isNone
        · refine ⟨st.balances, ?_, fun k => rfl⟩
          simp [failState, dispatchOp, hop1, TokenOp.CREATE, TokenOp.TRANSFER, TokenOp.APPROVE,
            TokenOp.TRANSFERFROM, TokenOp.INCREASE_ALLOWANCE, TokenOp.DECREASE_ALLOWANCE,
            TokenOp.BURN, hmiss]
        · refine ⟨aensure st.balances (op.fromW, op.token) 0, ?_, fun k => agetD_aensure _ _ _ _⟩
          simp only [Bool.not_eq_true] at hmiss
          simp [failState, dispatchOp, hop1, TokenOp.CREATE, TokenOp.TRANSFER, TokenOp.APPROVE,
            TokenOp.TRANSFERFROM, TokenOp.INCREASE_ALLOWANCE, TokenOp.DECREASE_ALLOWANCE,
            TokenOp.BURN, hmiss, Burn, agetD_aensure, hbal]
    · have hdisp : ∀ res, TransferFrom { st with seen_ops := st.seen_ops ++ [TokenOperationHash op] }
          op.spender op.fromW op.toW op.token op.amount = res →
          dispatchOp { st with seen_ops := st.seen_ops ++ [TokenOperationHash op] } op chainHeight = res := by
        intro res hres
        simp [failState, dispatchOp, hop1, TokenOp.CREATE, TokenOp.TRANSFER, TokenOp.APPROVE,
          TokenOp.TRANSFERFROM, hres]
      rcases htf with hallow | hbal
      · cases halw : alookup st.allowances (op.fromW, op.spender, op.token) with
        | none =>
          refine ⟨st.balances, hdisp _ ?_, fun k => rfl⟩
          simp [failState, TransferFrom, halw]
        | some a =>
          rw [halw] at hallow
          simp only [decide_eq_true_eq] at hallow
          refine ⟨st.balances, hdisp _ ?_, fun k => rfl⟩
          simp [failState, TransferFrom, halw, hallow]
      · cases halw : alookup st.allowances (op.fromW, op.spender, op.token) with
        | none =>
          refine ⟨st.balances, hdisp _ ?_, fun k => rfl⟩
          simp [failState, TransferFrom, halw]
        | some a =>
          by_cases ha : a < op.amount
          · refine ⟨st.balances, hdisp _ ?_, fun k => rfl⟩
            simp [failState, TransferFrom, halw, ha]
          · refine ⟨aensure st.balances (op.fromW, op.token) 0, hdisp _ ?_,
              fun k => agetD_aensure _ _ _ _⟩
            simp [failState, TransferFrom, halw, ha, agetD_aensure, hbal]
    · cases hmm : alookup st.token_meta op.token with
      | none =>
        refine ⟨st.balances, ?_, fun k => rfl⟩
        simp [failState, dispatchOp, hop1, TokenOp.CREATE, TokenOp.TRANSFER, TokenOp.APPROVE,
          TokenOp.TRANSFERFROM, TokenOp.INCREASE_ALLOWANCE, TokenOp.DECREASE_ALLOWANCE,
          TokenOp.BURN, TokenOp.MINT, hmm]
      | some m =>
        rw [hmm] at hmint
        simp only [bne_iff_ne] at hmint
        refine ⟨st.balances, ?_, fun k => rfl⟩
        simp [failState, dispatchOp, hop1, TokenOp.CREATE, TokenOp.TRANSFER, TokenOp.APPROVE,
          TokenOp.TRANSFERFROM, TokenOp.INCREASE_ALLOWANCE, TokenOp.DECREASE_ALLOWANCE,
          TokenOp.BURN, TokenOp.MINT, hmm, hmint]
    · cases hmm : alookup st.token_meta op.token with
      | none =>
        refine ⟨st.balances, ?_, fun k => rfl⟩
        simp [failState, dispatchOp, hop1, TokenOp.CREATE, TokenOp.TRANSFER, TokenOp.APPROVE,
          TokenOp.TRANSFERFROM, TokenOp.INCREASE_ALLOWANCE, TokenOp.DECREASE_ALLOWANCE,
          TokenOp.BURN, TokenOp.MINT, TokenOp.TRANSFER_OWNERSHIP, TransferOwnership, hmm]
      | some m =>
        rw [hmm] at hto
        simp only [bne_iff_ne] at hto
        refine ⟨st.balances, ?_, fun k => rfl⟩
        simp [failState, dispatchOp, hop1, TokenOp.CREATE, TokenOp.TRANSFER, TokenOp.APPROVE,
          TokenOp.TRANSFERFROM, TokenOp.INCREASE_ALLOWANCE, TokenOp.DECREASE_ALLOWANCE,
          TokenOp.BURN, TokenOp.MINT, TokenOp.TRANSFER_OWNERSHIP, TransferOwnership, hmm, hto]
  obtain ⟨bals', hd, hb⟩ := key
  rw [ApplyOperation_fail sigOk feeSent chainHeight st op wallet_name broadcast bals'
    hsig hseen hd]
  exact ⟨rfl, hb, rfl, rfl, rfl, rfl, rfl, rfl⟩

/-- C8 counterexample data: the failing TRANSFER of `op8` (insufficient
balance) leaves a changed state — the hash is added to `seen_ops`. -/
theorem C8_counterexample :
    violates st8 op8 = true ∧
    (ApplyOperation (fun _ => true) false 0 st8 op8 [] false).1 = false ∧
    (ApplyOperation (fun _ => true) false 0 st8 op8 [] false).2 ≠ st8 ∧
    (ApplyOperation (fun _ => true) false 0 st8 op8 [] false).2.seen_ops
      = st8.seen_ops ++ [TokenOperationHash op8] := by
  refine ⟨by decide, by decide, by decide, by decide⟩

/-- Witness for `C8_amended_thm` at the `st8`/`op8` input. -/
theorem C8_amended_witness :
    (ApplyOperation (fun _ => true) false 0 st8 op8 [] false).1 = false ∧
    (∀ k, agetD (ApplyOperation (fun _ => true) false 0 st8 op8 [] false).2.balances
        k 0 = agetD st8.balances k 0) ∧
    (ApplyOperation (fun _ => true) false 0 st8 op8 [] false).2.allowances
        = st8.allowances ∧
    (ApplyOperation (fun _ => true) false 0 st8 op8 [] false).2.totalSupply
        = st8.totalSupply ∧
    (ApplyOperation (fun _ => true) false 0 st8 op8 [] false).2.token_meta
        = st8.token_meta ∧
    (ApplyOperation (fun _ => true) false 0 st8 op8 [] false).2.history
        = st8.history ∧
    (ApplyOperation (fun _ => true) false 0 st8 op8 [] false).2.governance_fees
        = st8.governance_fees ∧
    (ApplyOperation (fun _ => true) false 0 st8 op8 [] false).2.seen_ops
        = st8.seen_ops ++ [TokenOperationHash op8] :=
  C8_amended_thm (fun _ => true) false 0 st8 op8 [] false (by decide) (by decide)
    (by decide)

/-- C10: no handler checks the sign of `amount`: the TRANSFER of −5 from a
zero-balance wallet passes the `from_bal < amount` test, `ApplyOperation`
(and `ReplayOperation`) succeed, the sender's balance rises to 5 and the
recipient's falls to −5 — balances are not kept non-negative. -/
theorem C10_negative_amount :
    op10.op = TokenOp.TRANSFER ∧ op10.amount < 0 ∧
    agetD st8.balances (alice, tokA) 0 = 0 ∧
    (ApplyOperation (fun _ => true) false 0 st8 op10 [] false).1 = true ∧
    agetD (ApplyOperation (fun _ => true) false 0 st8 op10 [] false).2.balances
      (alice, tokA) 0 = 5 ∧
    agetD (ApplyOperation (fun _ => true) false 0 st8 op10 [] false).2.balances
      (bob, tokA) 0 = -5 ∧
    (ReplayOperation (fun _ => true) st8 op10 0).1 = true := by
  refine ⟨by decide, by decide, by decide, by decide, by decide, by decide, by decide⟩

/-! ### Package selection (`BlockAssembler::addPackageTxs`, src/miner.cpp)

A mempool entry carries the per-transaction quantities the assembler reads
(`GetTxSize`, `GetTxWeight`, `GetSigOpCost`, fees) and the precomputed
ancestor aggregates of the mempool index; `ancestors` lists the txids of the
entry's in-mempool ancestor closure *including itself* (as
`GetSizeWithAncestors` counts the entry).  `isFinal` abstracts
`IsFinalTx(tx, nHeight, nLockTimeCutoff)` at the template's height. -/
structure MemEntry where
  txid : Nat
  txSize : Nat
  txWeight : Nat
  sigOpCost : Nat
  fee : Int
  modFee : Int
  ancestors : List Nat
  sizeWithAncestors : Nat
  modFeesWithAncestors : Int
  sigOpCostWithAncestors : Nat
  isFinal : Bool
  hasWitness : Bool
  deriving Repr, DecidableEq

/-- Resolve a txid in the mempool view. -/
def lookupTx : List MemEntry → Nat → Option MemEntry
  | [], _ => none
  | e :: rest, id => if e.txid = id then some e else lookupTx rest id

/-- The entries behind a list of txids (`CalculateMemPoolAncestors`' result
plus the entry itself, before the `onlyUnconfirmed` filter). -/
def ancEntries (mp : List MemEntry) (ids : List Nat) : List MemEntry :=
  ids.filterMap (lookupTx mp)

def sumSize (es : List MemEntry) : Nat := (es.map (fun e => e.txSize)).sum
def sumWeight (es : List MemEntry) : Nat := (es.map (fun e => e.txWeight)).sum
def sumSigOps (es : List MemEntry) : Nat := (es.map (fun e => e.sigOpCost)).sum

/-- `CTxMemPoolModifiedEntry`: an entry whose ancestor aggregates have been
reduced by the already-included ancestors. -/
structure ModEntry where
  entry : MemEntry
  sizeWithAncestors : Nat
  modFeesWithAncestors : Int
  sigOpCostWithAncestors : Nat
  deriving Repr, DecidableEq

/-- The loop state of `addPackageTxs`: the remaining mempool-index iteration
(`mi`), the modified set, the failed set, the accumulators of
`BlockAssembler` (`inBlock`, weight, sigops, fees) and the
consecutive-failure counter. -/
structure SelState where
  mi : List MemEntry
  mapModifiedTx : List ModEntry
  failedTx : List Nat
  inBlock : List Nat
  nBlockWeight : Nat
  nBlockSigOpsCost : Nat
  nFees : Int
  nConsecutiveFailed : Nat
  deriving Repr, DecidableEq

/-- The assembler's bounds and flags: `nBlockMaxWeight` (clamped into
[4000, MAX_BLOCK_WEIGHT−4000] by the constructor), `MAX_BLOCK_SIGOPS_COST`
(consensus/consensus.h, not among the repository files), witness inclusion,
and `blockMinFeeRate.GetFee` abstracted as a function of the package size
(modelled from the spec: `package_fees ≥ blockMinFeeRate × package_size`). -/
structure AsmParams where
  nBlockMaxWeight : Nat
  maxBlockSigOpsCost : Nat
  fIncludeWitness : Bool
  blockMinFee : Nat → Int

/-- Modelled from the spec: `CompareTxMemPoolEntryByAncestorFee`
(txmempool.h, not among the repository files) — compare ancestor fee-rates
by cross-multiplication, ties by transaction hash. -/
def ancScoreBetter (aFee : Int) (aSize : Nat) (aId : Nat)
    (bFee : Int) (bSize : Nat) (bId : Nat) : Bool :=
  let f1 := aFee * (bSize : Int)
  let f2 := (aSize : Int) * bFee
  if f1 = f2 then aId < bId else f1 > f2

/-- `mapModifiedTx.get<ancestor_score>().begin()`: the best modified entry. -/
def bestMod (map : List ModEntry) : Option ModEntry :=
  map.foldl
    (fun acc m =>
      match acc with
      | none => some m
      | some b =>
        if ancScoreBetter m.modFeesWithAncestors m.sizeWithAncestors m.entry.txid
            b.modFeesWithAncestors b.sizeWithAncestors b.entry.txid then some m
        else some b)
    none

/-- `mapModifiedTx.find`. -/
def findMod : List ModEntry → Nat → Option ModEntry
  | [], _ => none
  | m :: rest, id => if m.entry.txid = id then some m else findMod rest id

/-- `mapModifiedTx.erase`. -/
def eraseMod (map : List ModEntry) (id : Nat) : List ModEntry :=
  map.filter (fun m => m.entry.txid ≠ id)

/-- Replace the (unique) modified entry at a txid. -/
def setMod : List ModEntry → Nat → ModEntry → List ModEntry
  | [], _, _ => []
  | m :: rest, id, new => if m.entry.txid = id then new :: rest else m :: setMod rest id new

/-- `BlockAssembler::UpdatePackagesForAdded`: for every newly added
transaction, walk its in-mempool descendants (`CalculateDescendants`, which
includes the transaction itself — skipped via the `alreadyAdded` check) and
subtract the added transaction's size, modified fee and sigops cost from the
descendant's (created-on-demand) modified aggregates. -/
def updateForAdded (mp : List MemEntry) (added : List MemEntry)
    (map : List ModEntry) : List ModEntry :=
  added.foldl
    (fun acc a =>
      (mp.filter (fun d => a.txid ∈ d.ancestors)).foldl
        (fun acc2 d =>
          if added.any (fun x => x.txid = d.txid) then acc2
          else
            match findMod acc2 d.txid with
            | none =>
              acc2 ++ [⟨d, d.sizeWithAncestors - a.txSize,
                d.modFeesWithAncestors - a.modFee,
                d.sigOpCostWithAncestors - a.sigOpCost⟩]
            | some m =>
              setMod acc2 d.txid ⟨d, m.sizeWithAncestors - a.txSize,
                m.modFeesWithAncestors - a.modFee,
                m.sigOpCostWithAncestors - a.sigOpCost⟩)
        acc)
    map

/-- `BlockAssembler::TestPackage` with `WITNESS_SCALE_FACTOR = 4`. -/
def TestPackage (P : AsmParams) (s : SelState) (packageSize packageSigOps : Nat) : Bool :=
  if s.nBlockWeight + 4 * packageSize ≥ P.nBlockMaxWeight then false
  else if s.nBlockSigOpsCost + packageSigOps ≥ P.maxBlockSigOpsCost then false
  else true

/-- `BlockAssembler::TestPackageTransactions`: finality and premature
witness. -/
def TestPackageTransactions (P : AsmParams) (package : List MemEntry) : Bool :=
  package.all (fun e => e.isFinal && (P.fIncludeWitness || !e.hasWitness))

/-- `BlockAssembler::AddToBlock`. -/
def AddToBlock (s : SelState) (e : MemEntry) : SelState :=
  { s with nBlockWeight := s.nBlockWeight + e.txWeight,
           nBlockSigOpsCost := s.nBlockSigOpsCost + e.sigOpCost,
           nFees := s.nFees + e.fee,
           inBlock := s.inBlock ++ [e.txid] }

/-- Modelled from the spec: `SortForBlock` orders the package by in-mempool
ancestor count (`CompareTxIterByAncestorCount`, miner.h, not among the
repository files), a valid topological linearisation. -/
def SortForBlock (package : List MemEntry) : List MemEntry :=
  package.mergeSort (fun a b => a.ancestors.length ≤ b.ancestors.length)

/-- The body of one `addPackageTxs` iteration once a candidate and its
package aggregates are chosen.  Returns the successor state and whether the
`MAX_CONSECUTIVE_FAILURES` break fires. -/
def selBody (mp : List MemEntry) (P : AsmParams) (s : SelState) (iter : MemEntry)
    (pkgSize : Nat) (pkgFees : Int) (pkgSigOps : Nat) (fUsingModified : Bool) :
    SelState × Bool :=
  let onFail := fun (s' : SelState) =>
    if fUsingModified then
      { s' with mapModifiedTx := eraseMod s'.mapModifiedTx iter.txid,
                failedTx := s'.failedTx ++ [iter.txid] }
    else s'
  if pkgFees < P.blockMinFee pkgSize then
    let s1 := onFail s
    let s2 := { s1 with nConsecutiveFailed := s1.nConsecutiveFailed + 1 }
    (s2, decide (s2.nConsecutiveFailed > 1000 ∧
      s2.nBlockWeight > P.nBlockMaxWeight - 4000))
  else if ¬ TestPackage P s pkgSize pkgSigOps then
    let s1 := onFail s
    let s2 := { s1 with nConsecutiveFailed := s1.nConsecutiveFailed + 1 }
    (s2, decide (s2.nConsecutiveFailed > 1000 ∧
      s2.nBlockWeight > P.nBlockMaxWeight - 4000))
  else
    let package := (ancEntries mp iter.ancestors).filter
      (fun x => decide (x.txid ∉ s.inBlock))
    if ¬ TestPackageTransactions P package then (onFail s, false)
    else
      let sorted := SortForBlock package
      let s1 := sorted.foldl
        (fun acc e =>
          let acc1 := AddToBlock acc e
          { acc1 with mapModifiedTx := eraseMod acc1.mapModifiedTx e.txid })
        s
      let s2 := { s1 with nConsecutiveFailed := 0 }
      ({ s2 with mapModifiedTx := updateForAdded mp package s2.mapModifiedTx }, false)

/-- One iteration of the `addPackageTxs` while loop: skip stale index
entries, choose between the front of the index and the best modified entry,
and run the body. -/
def selStep (mp : List MemEntry) (P : AsmParams) (s : SelState) : SelState × Bool :=
  match s.mi with
  | e :: rest =>
    if (findMod s.mapModifiedTx e.txid).isSome ∨ e.txid ∈ s.inBlock ∨
        e.txid ∈ s.failedTx then
      ({ s with mi := rest }, false)
    else
      match bestMod s.mapModifiedTx with
      | some modit =>
        if ancScoreBetter modit.modFeesWithAncestors modit.sizeWithAncestors
            modit.entry.txid e.modFeesWithAncestors e.sizeWithAncestors e.txid then
          selBody mp P s modit.entry modit.sizeWithAncestors
            modit.modFeesWithAncestors modit.sigOpCostWithAncestors true
        else
          selBody mp P { s with mi := rest } e e.sizeWithAncestors
            e.modFeesWithAncestors e.sigOpCostWithAncestors false
      | none =>
        selBody mp P { s with mi := rest } e e.sizeWithAncestors
          e.modFeesWithAncestors e.sigOpCostWithAncestors false
  | [] =>
    match bestMod s.mapModifiedTx with
    | some modit =>
      selBody mp P s modit.entry modit.sizeWithAncestors
        modit.modFeesWithAncestors modit.sigOpCostWithAncestors true
    | none => (s, true)

/-- The `addPackageTxs` while loop, fuel-bounded (the state after `k`
iterations is the value at fuel `k`, so bounds proved for every fuel bound
every intermediate state of a run). -/
def addPackageTxsGo (mp : List MemEntry) (P : AsmParams) : Nat → SelState → SelState
  | 0, s => s
  | fuel + 1, s =>
    if s.mi.isEmpty ∧ s.mapModifiedTx.isEmpty then s
    else
      let r := selStep mp P s
      if r.2 then r.1 else addPackageTxsGo mp P fuel r.1

/-- `resetBlock` + the start of `addPackageTxs`: 4000 weight units and 400
sigops reserved for the coinbase, the full index to scan, empty modified and
failed sets (`UpdatePackagesForAdded(inBlock = ∅, ·)` is a no-op). -/
def initSelState (mp : List MemEntry) : SelState :=
  ⟨mp, [], [], [], 4000, 400, 0, 0⟩

/-- Mempool well-formedness: distinct txids; every entry is its own
ancestor; ancestor lists are duplicate-free; the ancestor aggregates are the
sums over the ancestor entries; and the transaction weight is at most four
times the virtual size (`GetVirtualTransactionSize` rounds the weight up). -/
def mpWF (mp : List MemEntry) : Prop :=
  (mp.map (fun e => e.txid)).Nodup ∧
  (∀ e ∈ mp, e.txid ∈ e.ancestors) ∧
  (∀ e ∈ mp, e.ancestors.Nodup) ∧
  (∀ e ∈ mp, e.sizeWithAncestors = sumSize (ancEntries mp e.ancestors)) ∧
  (∀ e ∈ mp, e.sigOpCostWithAncestors = sumSigOps (ancEntries mp e.ancestors)) ∧
  (∀ e ∈ mp, e.txWeight ≤ 4 * e.txSize)

instance : DecidablePred mpWF := fun mp => by
  unfold mpWF; infer_instance

end Interchained

namespace Interchained

/-- The ancestor entries of `e` not yet included in the block. -/
def residual (mp : List MemEntry) (e : MemEntry) (S : List Nat) : List MemEntry :=
  (ancEntries mp e.ancestors).filter (fun x => decide (x.txid ∉ S))

/-- The bound a modified entry's aggregates must dominate. -/
def Bnd (mp : List MemEntry) (S : List Nat) (m : ModEntry) : Prop :=
  m.entry ∈ mp ∧
  sumSize (residual mp m.entry S) ≤ m.sizeWithAncestors ∧
  sumSigOps (residual mp m.entry S) ≤ m.sigOpCostWithAncestors

/-- The loop invariant of `addPackageTxs`. -/
def selInv (mp : List MemEntry) (P : AsmParams) (s : SelState) : Prop :=
  s.nBlockWeight ≤ P.nBlockMaxWeight ∧
  s.nBlockSigOpsCost ≤ P.maxBlockSigOpsCost ∧
  (∀ e ∈ s.mi, e ∈ mp) ∧
  (∀ m ∈ s.mapModifiedTx, Bnd mp s.inBlock m)

theorem lookupTx_txid (mp : List MemEntry) (id : Nat) (x : MemEntry)
    (h : lookupTx mp id = some x) : x.txid = id := by
  induction mp with
  | nil => simp [lookupTx] at h
  | cons e rest ih =>
    by_cases he : e.txid = id
    · simp [lookupTx, he] at h
      rw [← h]; exact he
    · simp [lookupTx, he] at h
      exact ih h

theorem lookupTx_mem (mp : List MemEntry) (id : Nat) (x : MemEntry)
    (h : lookupTx mp id = some x) : x ∈ mp := by
  induction mp with
  | nil => simp [lookupTx] at h
  | cons e rest ih =>
    by_cases he : e.txid = id
    · simp [lookupTx, he] at h
      simp [← h]
    · simp [lookupTx, he] at h
      exact List.mem_cons_of_mem _ (ih h)

theorem lookupTx_self (mp : List MemEntry) (hnd : (mp.map (fun e => e.txid)).Nodup)
    (e : MemEntry) (he : e ∈ mp) : lookupTx mp e.txid = some e := by
  induction mp with
  | nil => simp at he
  | cons a rest ih =>
    simp only [List.map_cons, List.nodup_cons] at hnd
    rcases List.mem_cons.mp he with rfl | hmem
    · simp [lookupTx]
    · have hne : a.txid ≠ e.txid := by
        intro hEq
        exact hnd.1 (hEq ▸ List.mem_map_of_mem (fun x => x.txid) hmem)
      simp [lookupTx, hne]
      exact ih hnd.2 hmem

theorem mem_txid_inj (mp : List MemEntry) (hnd : (mp.map (fun e => e.txid)).Nodup)
    (x y : MemEntry) (hx : x ∈ mp) (hy : y ∈ mp) (h : x.txid = y.txid) : x = y := by
  have h1 := lookupTx_self mp hnd x hx
  have h2 := lookupTx_self mp hnd y hy
  rw [h] at h1
  rw [h1] at h2
  exact Option.some_injective _ h2

theorem ancEntries_mem (mp : List MemEntry) (ids : List Nat) (x : MemEntry)
    (h : x ∈ ancEntries mp ids) : x ∈ mp := by
  obtain ⟨id, _, hl⟩ := List.mem_filterMap.mp h
  exact lookupTx_mem mp id x hl

theorem sum_filter_mono (es : List MemEntry) (p q : MemEntry → Bool)
    (h : ∀ x, p x = true → q x = true) (f : MemEntry → Nat) :
    ((es.filter p).map f).sum ≤ ((es.filter q).map f).sum := by
  induction es with
  | nil => simp
  | cons e rest ih =>
    by_cases hp : p e
    · have hq := h e hp
      simp [hp, hq]
      omega
    · simp only [List.filter_cons]
      rw [if_neg (by simpa using hp)]
      by_cases hq : q e
      · rw [if_pos (by simpa using hq)]
        simp
        omega
      · rw [if_neg (by simpa using hq)]
        exact ih

theorem sum_filter_le (es : List MemEntry) (p : MemEntry → Bool) (f : MemEntry → Nat) :
    ((es.filter p).map f).sum ≤ (es.map f).sum := by
  induction es with
  | nil => simp
  | cons e rest ih =>
    by_cases hp : p e <;> simp [hp] <;> omega

theorem Bnd_mono (mp : List MemEntry) (S S' : List Nat) (m : ModEntry)
    (hs : ∀ x, x ∈ S → x ∈ S') (h : Bnd mp S m) : Bnd mp S' m := by
  obtain ⟨h1, h2, h3⟩ := h
  refine ⟨h1, le_trans ?_ h2, le_trans ?_ h3⟩ <;>
  · apply sum_filter_mono
    intro x hx
    simp only [decide_eq_true_eq] at hx ⊢
    exact fun hmem => hx (hs _ hmem)

theorem Bnd_congr (mp : List MemEntry) (S S' : List Nat) (m : ModEntry)
    (hs : ∀ x, x ∈ S ↔ x ∈ S') (h : Bnd mp S m) : Bnd mp S' m :=
  Bnd_mono mp S S' m (fun x hx => (hs x).mp hx) h

end Interchained
namespace Interchained

/-- Removing a newly included ancestor from the residual frees exactly its
contribution. -/
theorem key_sub (mp : List MemEntry) (hnd : (mp.map (fun e => e.txid)).Nodup)
    (ids : List Nat) (hids : ids.Nodup) (a : MemEntry) (ha : a ∈ mp)
    (hin : a.txid ∈ ids) (S : List Nat) (haS : a.txid ∉ S) (f : MemEntry → Nat) :
    (((ancEntries mp ids).filter (fun x => decide (x.txid ∉ S ++ [a.txid]))).map f).sum + f a
      ≤ (((ancEntries mp ids).filter (fun x => decide (x.txid ∉ S))).map f).sum := by
  induction ids with
  | nil => simp at hin
  | cons i rest ih =>
    simp only [List.nodup_cons] at hids
    rcases List.mem_cons.mp hin with rfl | hmem
    · -- head is a's txid
      have hla : lookupTx mp a.txid = some a := lookupTx_self mp hnd a ha
      have hrest : ∀ x ∈ ancEntries mp rest, x.txid ≠ a.txid := by
        intro x hx
        obtain ⟨id, hid, hl⟩ := List.mem_filterMap.mp hx
        rw [lookupTx_txid mp id x hl]
        intro hEq
        exact hids.1 (hEq ▸ hid)
      have hfeq : (ancEntries mp rest).filter (fun x => decide (x.txid ∉ S ++ [a.txid]))
          = (ancEntries mp rest).filter (fun x => decide (x.txid ∉ S)) := by
        apply List.filter_congr
        intro x hx
        have := hrest x hx
        simp only [decide_eq_decide, List.mem_append, List.mem_singleton]
        tauto
      simp only [ancEntries, List.filterMap_cons, hla]
      simp only [List.filter_cons]
      rw [if_neg (by simp), if_pos (by simpa using haS)]
      show ((((ancEntries mp rest).filter _).map f).sum) + f a ≤
        f a + (((ancEntries mp rest).filter _).map f).sum
      rw [hfeq]
      omega
    · -- head is another id
      have hne : i ≠ a.txid := by
        intro hEq
        exact hids.1 (hEq ▸ hmem)
      have hrec := ih hids.2 hmem
      simp only [ancEntries, List.filterMap_cons]
      cases hl : lookupTx mp i with
      | none => exact hrec
      | some x =>
        have hxid : x.txid = i := lookupTx_txid mp i x hl
        simp only [List.filter_cons]
        by_cases hiS : i ∈ S
        · rw [if_neg (by simp [hxid, hiS]), if_neg (by simp [hxid, hiS])]
          exact hrec
        · rw [if_pos (by simp [hxid, hiS, hne]), if_pos (by simp [hxid, hiS])]
          simp only [List.map_cons, List.sum_cons]
          simp only [ancEntries] at hrec
          omega

end Interchained
namespace Interchained

theorem findMod_none (acc : List ModEntry) (id : Nat) (h : findMod acc id = none) :
    ∀ m ∈ acc, m.entry.txid ≠ id := by
  induction acc with
  | nil => simp
  | cons m0 rest ih =>
    by_cases he : m0.entry.txid = id
    · simp [findMod, he] at h
    · simp [findMod, he] at h
      intro m hm
      rcases List.mem_cons.mp hm with rfl | hmem
      · exact he
      · exact ih h m hmem

theorem findMod_some (acc : List ModEntry) (id : Nat) (m : ModEntry)
    (h : findMod acc id = some m) : m ∈ acc ∧ m.entry.txid = id := by
  induction acc with
  | nil => simp [findMod] at h
  | cons m0 rest ih =>
    by_cases he : m0.entry.txid = id
    · simp [findMod, he] at h
      exact ⟨by simp [← h], by rw [← h]; exact he⟩
    · simp [findMod, he] at h
      obtain ⟨h1, h2⟩ := ih h
      exact ⟨List.mem_cons_of_mem _ h1, h2⟩

theorem setMod_mem (acc : List ModEntry) (id : Nat) (new : ModEntry) (m : ModEntry)
    (h : m ∈ setMod acc id new) : m = new ∨ m ∈ acc := by
  induction acc with
  | nil => simp [setMod] at h
  | cons m0 rest ih =>
    by_cases he : m0.entry.txid = id
    · simp only [setMod, if_pos he] at h
      rcases List.mem_cons.mp h with rfl | hmem
      · exact Or.inl rfl
      · exact Or.inr (List.mem_cons_of_mem _ hmem)
    · simp only [setMod, if_neg he] at h
      rcases List.mem_cons.mp h with rfl | hmem
      · exact Or.inr (List.mem_cons_self _ _)
      · rcases ih hmem with h1 | h1
        · exact Or.inl h1
        · exact Or.inr (List.mem_cons_of_mem _ h1)

/-- One `UpdatePackagesForAdded` walk for a single newly added transaction
`a` turns bounds relative to `S` into bounds relative to `S ++ [a.txid]`. -/
theorem innerOK (mp : List MemEntry) (added : List MemEntry) (a : MemEntry)
    (hnd : (mp.map (fun e => e.txid)).Nodup)
    (hanc : ∀ e ∈ mp, e.ancestors.Nodup)
    (hsz : ∀ e ∈ mp, e.sizeWithAncestors = sumSize (ancEntries mp e.ancestors))
    (hsg : ∀ e ∈ mp, e.sigOpCostWithAncestors = sumSigOps (ancEntries mp e.ancestors))
    (ha : a ∈ mp) (S : List Nat) (haS : a.txid ∉ S) :
    ∀ (D : List MemEntry), (∀ d ∈ D, d ∈ mp ∧ a.txid ∈ d.ancestors) →
      (D.map (fun d => d.txid)).Nodup →
      ∀ (acc : List ModEntry),
        (∀ m ∈ acc, (m.entry.txid ∈ D.map (fun d => d.txid) → Bnd mp S m) ∧
          (m.entry.txid ∉ D.map (fun d => d.txid) → Bnd mp (S ++ [a.txid]) m)) →
        ∀ m ∈ D.foldl
          (fun acc2 d =>
            if added.any (fun x => x.txid = d.txid) then acc2
            else
              match findMod acc2 d.txid with
              | none =>
                acc2 ++ [⟨d, d.sizeWithAncestors - a.txSize,
                  d.modFeesWithAncestors - a.modFee,
                  d.sigOpCostWithAncestors - a.sigOpCost⟩]
              | some m =>
                setMod acc2 d.txid ⟨d, m.sizeWithAncestors - a.txSize,
                  m.modFeesWithAncestors - a.modFee,
                  m.sigOpCostWithAncestors - a.sigOpCost⟩) acc,
          Bnd mp (S ++ [a.txid]) m := by
  intro D
  induction D with
  | nil =>
    intro _ _ acc hacc m hm
    exact (hacc m hm).2 (by simp)
  | cons d D' ih =>
    intro hD hDnd acc hacc
    obtain ⟨hdmp, hdanc⟩ := hD d (List.mem_cons_self _ _)
    simp only [List.map_cons, List.nodup_cons] at hDnd
    simp only [List.foldl_cons]
    have hD' := fun d' hd' => hD d' (List.mem_cons_of_mem _ hd')
    have hcarry : ∀ m ∈ acc,
        (m.entry.txid ∈ D'.map (fun x => x.txid) → Bnd mp S m) ∧
        (m.entry.txid ∉ D'.map (fun x => x.txid) → Bnd mp (S ++ [a.txid]) m) := by
      intro m hm
      obtain ⟨h1, h2⟩ := hacc m hm
      refine ⟨fun hmem => h1 (by simp [hmem]), fun hmem => ?_⟩
      by_cases hd : m.entry.txid = d.txid
      · exact Bnd_mono mp S _ m (fun x hx => by simp [hx]) (h1 (by simp [hd]))
      · exact h2 (by simp [hd, hmem])
    have hks := key_sub mp hnd d.ancestors (hanc d hdmp) a ha hdanc S haS
      (fun e => e.txSize)
    have hkg := key_sub mp hnd d.ancestors (hanc d hdmp) a ha hdanc S haS
      (fun e => e.sigOpCost)
    have hfs := sum_filter_le (ancEntries mp d.ancestors)
      (fun x => decide (x.txid ∉ S)) (fun e => e.txSize)
    have hfg := sum_filter_le (ancEntries mp d.ancestors)
      (fun x => decide (x.txid ∉ S)) (fun e => e.sigOpCost)
    by_cases hskip : added.any (fun x => x.txid = d.txid)
    · rw [if_pos hskip]
      exact ih hD' hDnd.2 acc hcarry
    · rw [if_neg hskip]
      cases hfm : findMod acc d.txid with
      | none =>
        apply ih hD' hDnd.2 _ ?_
        intro m hm
        rcases List.mem_append.mp hm with hmem | hmem
        · exact hcarry m hmem
        · rw [List.mem_singleton] at hmem
          subst hmem
          refine ⟨fun hmem2 => absurd hmem2 (by simpa using hDnd.1),
            fun _ => ⟨hdmp, ?_, ?_⟩⟩
          · have hdd := hsz d hdmp
            simp only [sumSize] at hdd
            simp only [residual, sumSize] at hks hfs ⊢
            omega
          · have hdd := hsg d hdmp
            simp only [sumSigOps] at hdd
            simp only [residual, sumSigOps] at hkg hfg ⊢
            omega
      | some m0 =>
        obtain ⟨hm0mem, hm0id⟩ := findMod_some acc d.txid m0 hfm
        have hm0 : Bnd mp S m0 := (hacc m0 hm0mem).1 (by simp [hm0id])
        have hm0entry : m0.entry = d :=
          mem_txid_inj mp hnd m0.entry d hm0.1 hdmp (by rw [hm0id])
        apply ih hD' hDnd.2 _ ?_
        intro m hm
        rcases setMod_mem acc d.txid _ m hm with hmem | hmem
        · subst hmem
          refine ⟨fun hmem2 => absurd hmem2 (by simpa using hDnd.1),
            fun _ => ⟨hdmp, ?_, ?_⟩⟩
          · have hb := hm0.2.1
            rw [hm0entry] at hb
            simp only [residual, sumSize] at hks hb ⊢
            omega
          · have hb := hm0.2.2
            rw [hm0entry] at hb
            simp only [residual, sumSigOps] at hkg hb ⊢
            omega
        · exact hcarry m hmem

end Interchained
namespace Interchained

/-- The outer `UpdatePackagesForAdded` fold, generalised over the pending
suffix of the added package. -/
theorem outer_go (mp : List MemEntry) (added : List MemEntry)
    (hnd : (mp.map (fun e => e.txid)).Nodup)
    (hanc : ∀ e ∈ mp, e.ancestors.Nodup)
    (hsz : ∀ e ∈ mp, e.sizeWithAncestors = sumSize (ancEntries mp e.ancestors))
    (hsg : ∀ e ∈ mp, e.sigOpCostWithAncestors = sumSigOps (ancEntries mp e.ancestors)) :
    ∀ (pending : List MemEntry) (S0 : List Nat) (map : List ModEntry),
      (∀ x ∈ pending, x ∈ mp) → (∀ x ∈ pending, x.txid ∉ S0) →
      (pending.map (fun x => x.txid)).Nodup →
      (∀ m ∈ map, Bnd mp S0 m) →
      ∀ m ∈ pending.foldl
        (fun acc a =>
          (mp.filter (fun d => a.txid ∈ d.ancestors)).foldl
            (fun acc2 d =>
              if added.any (fun x => x.txid = d.txid) then acc2
              else
                match findMod acc2 d.txid with
                | none =>
                  acc2 ++ [⟨d, d.sizeWithAncestors - a.txSize,
                    d.modFeesWithAncestors - a.modFee,
                    d.sigOpCostWithAncestors - a.sigOpCost⟩]
                | some m =>
                  setMod acc2 d.txid ⟨d, m.sizeWithAncestors - a.txSize,
                    m.modFeesWithAncestors - a.modFee,
                    m.sigOpCostWithAncestors - a.sigOpCost⟩)
            acc)
        map,
        Bnd mp (S0 ++ pending.map (fun x => x.txid)) m := by
  intro pending
  induction pending with
  | nil =>
    intro S0 map _ _ _ hmap m hm
    simpa using hmap m hm
  | cons a rest ih =>
    intro S0 map hmem hS0 hndp hmap
    simp only [List.map_cons, List.nodup_cons] at hndp
    simp only [List.foldl_cons]
    have hamp := hmem a (List.mem_cons_self _ _)
    have haS0 := hS0 a (List.mem_cons_self _ _)
    have hDok : ∀ d ∈ mp.filter (fun d => a.txid ∈ d.ancestors),
        d ∈ mp ∧ a.txid ∈ d.ancestors := by
      intro d hd
      have := List.mem_filter.mp hd
      exact ⟨this.1, by simpa using this.2⟩
    have hDnd : ((mp.filter (fun d => a.txid ∈ d.ancestors)).map
        (fun d => d.txid)).Nodup :=
      ((List.filter_sublist mp).map (fun d => d.txid)).nodup hnd
    have hacc1 := innerOK mp added a hnd hanc hsz hsg hamp S0 haS0
      (mp.filter (fun d => a.txid ∈ d.ancestors)) hDok hDnd map
      (fun m hm => ⟨fun _ => hmap m hm,
        fun _ => Bnd_mono mp S0 _ m (fun x hx => by simp [hx]) (hmap m hm)⟩)
    have hrec := ih (S0 ++ [a.txid]) _
      (fun x hx => hmem x (List.mem_cons_of_mem _ hx))
      (fun x hx => by
        simp only [List.mem_append, List.mem_singleton]
        push_neg
        refine ⟨hS0 x (List.mem_cons_of_mem _ hx), ?_⟩
        intro hEq
        exact hndp.1 (hEq ▸ List.mem_map_of_mem (fun x => x.txid) hx))
      hndp.2 hacc1
    intro m hm
    have := hrec m hm
    simpa [List.append_assoc] using this

/-- `UpdatePackagesForAdded` over a whole added package. -/
theorem updateForAdded_ok (mp : List MemEntry) (added : List MemEntry)
    (S0 : List Nat) (map : List ModEntry)
    (hnd : (mp.map (fun e => e.txid)).Nodup)
    (hanc : ∀ e ∈ mp, e.ancestors.Nodup)
    (hsz : ∀ e ∈ mp, e.sizeWithAncestors = sumSize (ancEntries mp e.ancestors))
    (hsg : ∀ e ∈ mp, e.sigOpCostWithAncestors = sumSigOps (ancEntries mp e.ancestors))
    (hmem : ∀ x ∈ added, x ∈ mp) (hS0 : ∀ x ∈ added, x.txid ∉ S0)
    (hndp : (added.map (fun x => x.txid)).Nodup)
    (hmap : ∀ m ∈ map, Bnd mp S0 m) :
    ∀ m ∈ updateForAdded mp added map,
      Bnd mp (S0 ++ added.map (fun x => x.txid)) m := by
  unfold updateForAdded
  exact outer_go mp added hnd hanc hsz hsg added S0 map hmem hS0 hndp hmap

end Interchained
namespace Interchained

/-- Effect of the add-and-erase fold of the success path. -/
theorem foldAdd_effect (es : List MemEntry) (s : SelState) :
    (es.foldl
      (fun acc e =>
        let acc1 := AddToBlock acc e
        { acc1 with mapModifiedTx := eraseMod acc1.mapModifiedTx e.txid }) s).nBlockWeight
      = s.nBlockWeight + sumWeight es ∧
    (es.foldl
      (fun acc e =>
        let acc1 := AddToBlock acc e
        { acc1 with mapModifiedTx := eraseMod acc1.mapModifiedTx e.txid }) s).nBlockSigOpsCost
      = s.nBlockSigOpsCost + sumSigOps es ∧
    (es.foldl
      (fun acc e =>
        let acc1 := AddToBlock acc e
        { acc1 with mapModifiedTx := eraseMod acc1.mapModifiedTx e.txid }) s).inBlock
      = s.inBlock ++ es.map (fun e => e.txid) ∧
    (es.foldl
      (fun acc e =>
        let acc1 := AddToBlock acc e
        { acc1 with mapModifiedTx := eraseMod acc1.mapModifiedTx e.txid }) s).mi = s.mi ∧
    (∀ m ∈ (es.foldl
      (fun acc e =>
        let acc1 := AddToBlock acc e
        { acc1 with mapModifiedTx := eraseMod acc1.mapModifiedTx e.txid }) s).mapModifiedTx,
      m ∈ s.mapModifiedTx) := by
  induction es generalizing s with
  | nil => simp [sumWeight, sumSigOps]
  | cons e rest ih =>
    simp only [List.foldl_cons]
    obtain ⟨h1, h2, h3, h4, h5⟩ := ih
      { (AddToBlock s e) with
          mapModifiedTx := eraseMod (AddToBlock s e).mapModifiedTx e.txid }
    refine ⟨?_, ?_, ?_, ?_, ?_⟩
    · rw [h1]
      simp [AddToBlock, sumWeight]
      omega
    · rw [h2]
      simp [AddToBlock, sumSigOps]
      omega
    · rw [h3]
      simp [AddToBlock]
    · rw [h4]
      simp [AddToBlock]
    · intro m hm
      have := h5 m hm
      simp only [AddToBlock, eraseMod] at this
      exact List.mem_of_mem_filter this

theorem sumWeight_le (es : List MemEntry) (h : ∀ e ∈ es, e.txWeight ≤ 4 * e.txSize) :
    sumWeight es ≤ 4 * sumSize es := by
  induction es with
  | nil => simp [sumWeight, sumSize]
  | cons e rest ih =>
    have h1 := h e (List.mem_cons_self _ _)
    have h2 := ih (fun x hx => h x (List.mem_cons_of_mem _ hx))
    simp only [sumWeight, sumSize, List.map_cons, List.sum_cons] at h2 ⊢
    omega

/-- The package built in `selBody` is the residual ancestor set. -/
theorem package_sub_mp (mp : List MemEntry) (iter : MemEntry) (S : List Nat) :
    ∀ x ∈ (ancEntries mp iter.ancestors).filter (fun x => decide (x.txid ∉ S)),
      x ∈ mp ∧ x.txid ∉ S := by
  intro x hx
  have := List.mem_filter.mp hx
  exact ⟨ancEntries_mem mp _ x this.1, by simpa using this.2⟩

/-- txids of the looked-up ancestor entries form a sublist of the id list. -/
theorem ancEntries_txids_sublist (mp : List MemEntry) (ids : List Nat) :
    ((ancEntries mp ids).map (fun e => e.txid)).Sublist ids := by
  induction ids with
  | nil => simp [ancEntries]
  | cons i rest ih =>
    simp only [ancEntries, List.filterMap_cons]
    cases hl : lookupTx mp i with
    | none => exact ih.cons i
    | some x =>
      simp only [List.map_cons]
      rw [lookupTx_txid mp i x hl]
      exact ih.cons₂ i

theorem package_nodup (mp : List MemEntry) (iter : MemEntry) (S : List Nat)
    (hids : iter.ancestors.Nodup) :
    (((ancEntries mp iter.ancestors).filter (fun x => decide (x.txid ∉ S))).map
      (fun e => e.txid)).Nodup := by
  have h1 : (((ancEntries mp iter.ancestors).filter
      (fun x => decide (x.txid ∉ S))).map (fun e => e.txid)).Sublist
      ((ancEntries mp iter.ancestors).map (fun e => e.txid)) :=
    (List.filter_sublist _).map _
  exact h1.nodup ((ancEntries_txids_sublist mp iter.ancestors).nodup hids)

end Interchained
namespace Interchained

/-- `selBody` preserves the loop invariant whenever the chosen package
aggregates dominate the residual package about to be added. -/
theorem selBody_inv (mp : List MemEntry) (P : AsmParams) (s : SelState)
    (iter : MemEntry) (pkgSize : Nat) (pkgFees : Int) (pkgSigOps : Nat)
    (fum : Bool)
    (hwf : mpWF mp) (hinv : selInv mp P s)
    (hiter : iter ∈ mp)
    (hpkgSize : sumSize (residual mp iter s.inBlock) ≤ pkgSize)
    (hpkgSig : sumSigOps (residual mp iter s.inBlock) ≤ pkgSigOps) :
    selInv mp P (selBody mp P s iter pkgSize pkgFees pkgSigOps fum).1 := by
  obtain ⟨hndup, hself, hanc, hsz, hsg, hwt⟩ := hwf
  obtain ⟨hW, hS, hmi, hmap⟩ := hinv
  have hfailInv : ∀ (s' : SelState), selInv mp P s' →
      selInv mp P (if fum then
        { s' with mapModifiedTx := eraseMod s'.mapModifiedTx iter.txid,
                  failedTx := s'.failedTx ++ [iter.txid] }
        else s') := by
    intro s' hs'
    obtain ⟨h1, h2, h3, h4⟩ := hs'
    by_cases hf : fum
    · simp only [if_pos hf]
      refine ⟨h1, h2, h3, ?_⟩
      intro m hm
      exact h4 m (List.mem_of_mem_filter hm)
    · simpa [hf] using ⟨h1, h2, h3, h4⟩
  unfold selBody
  by_cases hfee : pkgFees < P.blockMinFee pkgSize
  · rw [if_pos hfee]
    have := hfailInv s ⟨hW, hS, hmi, hmap⟩
    obtain ⟨h1, h2, h3, h4⟩ := this
    exact ⟨h1, h2, h3, h4⟩
  · rw [if_neg hfee]
    by_cases htp : TestPackage P s pkgSize pkgSigOps
    · rw [if_neg (by simpa using htp)]
      -- success path (modulo the transactions test)
      by_cases htx : TestPackageTransactions P
          ((ancEntries mp iter.ancestors).filter (fun x => decide (x.txid ∉ s.inBlock)))
      · rw [if_neg (by simpa using htx)]
        have hTP : s.nBlockWeight + 4 * pkgSize < P.nBlockMaxWeight ∧
            s.nBlockSigOpsCost + pkgSigOps < P.maxBlockSigOpsCost := by
          simp only [TestPackage] at htp
          by_cases c1 : s.nBlockWeight + 4 * pkgSize ≥ P.nBlockMaxWeight
          · rw [if_pos c1] at htp
            exact absurd htp (by simp)
          · rw [if_neg c1] at htp
            by_cases c2 : s.nBlockSigOpsCost + pkgSigOps ≥ P.maxBlockSigOpsCost
            · rw [if_pos c2] at htp
              exact absurd htp (by simp)
            · exact ⟨by omega, by omega⟩
        have hpkgmp : ∀ x ∈ (ancEntries mp iter.ancestors).filter
            (fun x => decide (x.txid ∉ s.inBlock)), x ∈ mp :=
          fun x hx => (package_sub_mp mp iter s.inBlock x hx).1
        have hpkgS : ∀ x ∈ (ancEntries mp iter.ancestors).filter
            (fun x => decide (x.txid ∉ s.inBlock)), x.txid ∉ s.inBlock :=
          fun x hx => (package_sub_mp mp iter s.inBlock x hx).2
        have hperm : (SortForBlock ((ancEntries mp iter.ancestors).filter
            (fun x => decide (x.txid ∉ s.inBlock)))).Perm
            ((ancEntries mp iter.ancestors).filter
              (fun x => decide (x.txid ∉ s.inBlock))) :=
          List.mergeSort_perm _ _
        obtain ⟨hw1, hs1, hib1, hmi1, hmm1⟩ := foldAdd_effect
          (SortForBlock ((ancEntries mp iter.ancestors).filter
            (fun x => decide (x.txid ∉ s.inBlock)))) s
        have hsumW : sumWeight (SortForBlock ((ancEntries mp iter.ancestors).filter
            (fun x => decide (x.txid ∉ s.inBlock)))) =
            sumWeight ((ancEntries mp iter.ancestors).filter
              (fun x => decide (x.txid ∉ s.inBlock))) := by
          unfold sumWeight
          exact (hperm.map (fun e => e.txWeight)).sum_eq
        have hsumS : sumSigOps (SortForBlock ((ancEntries mp iter.ancestors).filter
            (fun x => decide (x.txid ∉ s.inBlock)))) =
            sumSigOps ((ancEntries mp iter.ancestors).filter
              (fun x => decide (x.txid ∉ s.inBlock))) := by
          unfold sumSigOps
          exact (hperm.map (fun e => e.sigOpCost)).sum_eq
        have hszr := hpkgSize
        simp only [residual] at hszr
        have hsgr := hpkgSig
        simp only [residual] at hsgr
        have hWle : sumWeight ((ancEntries mp iter.ancestors).filter
            (fun x => decide (x.txid ∉ s.inBlock))) ≤ 4 * pkgSize := by
          have h1 := sumWeight_le ((ancEntries mp iter.ancestors).filter
            (fun x => decide (x.txid ∉ s.inBlock))) (fun e he => hwt e (hpkgmp e he))
          omega
        have hmapNew := updateForAdded_ok mp
          ((ancEntries mp iter.ancestors).filter (fun x => decide (x.txid ∉ s.inBlock)))
          s.inBlock _ hndup hanc hsz hsg hpkgmp hpkgS
          (package_nodup mp iter s.inBlock (hanc iter hiter))
          (fun m hm => hmap m (hmm1 m hm))
        refine ⟨?_, ?_, ?_, ?_⟩
        · show (_ : SelState).nBlockWeight ≤ _
          simp only [hw1]
          omega
        · show (_ : SelState).nBlockSigOpsCost ≤ _
          simp only [hs1]
          omega
        · show ∀ e ∈ (_ : SelState).mi, e ∈ mp
          simp only [hmi1]
          exact hmi
        · show ∀ m ∈ (_ : SelState).mapModifiedTx, Bnd mp _ m
          intro m hm
          have hbnd := hmapNew m hm
          apply Bnd_congr mp _ _ m ?_ hbnd
          intro x
          rw [hib1]
          simp only [List.mem_append]
          constructor
          · rintro (hx | hx)
            · exact Or.inl hx
            · exact Or.inr ((hperm.map (fun e => e.txid)).mem_iff.mpr hx)
          · rintro (hx | hx)
            · exact Or.inl hx
            · exact Or.inr ((hperm.map (fun e => e.txid)).mem_iff.mp hx)
      · rw [if_pos (by simpa using htx)]
        have := hfailInv s ⟨hW, hS, hmi, hmap⟩
        obtain ⟨h1, h2, h3, h4⟩ := this
        exact ⟨h1, h2, h3, h4⟩
    · rw [if_pos (by simpa using htp)]
      have := hfailInv s ⟨hW, hS, hmi, hmap⟩
      obtain ⟨h1, h2, h3, h4⟩ := this
      exact ⟨h1, h2, h3, h4⟩

end Interchained
namespace Interchained

theorem bestMod_mem_aux (l : List ModEntry) :
    ∀ (acc : Option ModEntry) (m : ModEntry),
      l.foldl
        (fun acc m =>
          match acc with
          | none => some m
          | some b =>
            if ancScoreBetter m.modFeesWithAncestors m.sizeWithAncestors m.entry.txid
                b.modFeesWithAncestors b.sizeWithAncestors b.entry.txid then some m
            else some b)
        acc = some m →
      acc = some m ∨ m ∈ l := by
  induction l with
  | nil =>
    intro acc m h
    exact Or.inl h
  | cons x rest ih =>
    intro acc m h
    simp only [List.foldl_cons] at h
    rcases ih _ m h with hstep | hmem
    · cases acc with
      | none =>
        simp at hstep
        exact Or.inr (by simp [← hstep])
      | some b =>
        by_cases hcmp : ancScoreBetter x.modFeesWithAncestors x.sizeWithAncestors
            x.entry.txid b.modFeesWithAncestors b.sizeWithAncestors b.entry.txid
        · simp [hcmp] at hstep
          exact Or.inr (by simp [← hstep])
        · simp [hcmp] at hstep
          exact Or.inl (by simp [← hstep])
    · exact Or.inr (List.mem_cons_of_mem _ hmem)

theorem bestMod_mem (map : List ModEntry) (m : ModEntry) (h : bestMod map = some m) :
    m ∈ map := by
  rcases bestMod_mem_aux map none m h with h1 | h1
  · simp at h1
  · exact h1

/-- One loop iteration preserves the invariant. -/
theorem selStep_inv (mp : List MemEntry) (P : AsmParams) (s : SelState)
    (hwf : mpWF mp) (hinv : selInv mp P s) :
    selInv mp P (selStep mp P s).1 := by
  obtain ⟨hW, hS, hmi, hmap⟩ := hinv
  have hraw : ∀ (e : MemEntry) (s' : SelState), e ∈ mp → s'.inBlock = s.inBlock →
      sumSize (residual mp e s'.inBlock) ≤ e.sizeWithAncestors ∧
      sumSigOps (residual mp e s'.inBlock) ≤ e.sigOpCostWithAncestors := by
    intro e s' he hib
    obtain ⟨hndup, hself, hanc, hsz, hsg, hwt⟩ := hwf
    rw [hib]
    constructor
    · rw [hsz e he]
      unfold residual sumSize
      exact sum_filter_le _ _ _
    · rw [hsg e he]
      unfold residual sumSigOps
      exact sum_filter_le _ _ _
  unfold selStep
  split
  next e rest heq =>
    have hmi' : ∀ x ∈ rest, x ∈ mp := by
      intro x hx
      exact hmi x (by rw [heq]; exact List.mem_cons_of_mem _ hx)
    have hemem : e ∈ mp := hmi e (by rw [heq]; exact List.mem_cons_self _ _)
    have hinv' : selInv mp P { s with mi := rest } := ⟨hW, hS, hmi', hmap⟩
    split
    next hskip => exact ⟨hW, hS, hmi', hmap⟩
    next hskip =>
      split
      next modit hbm =>
        have hmd := hmap modit (bestMod_mem _ _ hbm)
        split
        next hcmp =>
          exact selBody_inv mp P s modit.entry _ _ _ true hwf ⟨hW, hS, hmi, hmap⟩
            hmd.1 hmd.2.1 hmd.2.2
        next hcmp =>
          obtain ⟨hb1, hb2⟩ := hraw e { s with mi := rest } hemem rfl
          exact selBody_inv mp P { s with mi := rest } e _ _ _ false hwf hinv'
            hemem hb1 hb2
      next hbm =>
        obtain ⟨hb1, hb2⟩ := hraw e { s with mi := rest } hemem rfl
        exact selBody_inv mp P { s with mi := rest } e _ _ _ false hwf hinv'
          hemem hb1 hb2
  next heq =>
    split
    next modit hbm =>
      have hmd := hmap modit (bestMod_mem _ _ hbm)
      exact selBody_inv mp P s modit.entry _ _ _ true hwf ⟨hW, hS, hmi, hmap⟩
        hmd.1 hmd.2.1 hmd.2.2
    next hbm => exact ⟨hW, hS, hmi, hmap⟩

/-- The loop preserves the invariant for any fuel. -/
theorem addPackageTxsGo_inv (mp : List MemEntry) (P : AsmParams) (fuel : Nat)
    (s : SelState) (hwf : mpWF mp) (hinv : selInv mp P s) :
    selInv mp P (addPackageTxsGo mp P fuel s) := by
  induction fuel generalizing s with
  | zero => exact hinv
  | succ fuel ih =>
    unfold addPackageTxsGo
    by_cases hdone : s.mi.isEmpty ∧ s.mapModifiedTx.isEmpty
    · rw [if_pos hdone]
      exact hinv
    · rw [if_neg hdone]
      have hstep := selStep_inv mp P s hwf hinv
      by_cases hbrk : (selStep mp P s).2
      · simp only [hbrk, if_true]
        exact hstep
      · simp only [hbrk, if_false]
        exact ih _ hstep

/-- C6: for every well-formed mempool view, every fuel bound (hence every
prefix of the run) and constructor-clamped limits, the accumulated block
weight (including the 4000-weight coinbase reservation) never exceeds
`nBlockMaxWeight`, and the accumulated sigops cost (including the 400
reserved) never exceeds `MAX_BLOCK_SIGOPS_COST`: `TestPackage` checks both
bounds against the package's ancestor aggregates before any transaction of
the package is added. -/
theorem C6_selection_bounds (mp : List MemEntry) (P : AsmParams) (fuel : Nat)
    (hwf : mpWF mp) (hW : 4000 ≤ P.nBlockMaxWeight)
    (hS : 400 ≤ P.maxBlockSigOpsCost) :
    (addPackageTxsGo mp P fuel (initSelState mp)).nBlockWeight ≤ P.nBlockMaxWeight ∧
    (addPackageTxsGo mp P fuel (initSelState mp)).nBlockSigOpsCost
      ≤ P.maxBlockSigOpsCost := by
  have hinv : selInv mp P (initSelState mp) :=
    ⟨hW, hS, fun e he => he, by simp [initSelState]⟩
  have h := addPackageTxsGo_inv mp P fuel (initSelState mp) hwf hinv
  exact ⟨h.1, h.2.1⟩

end Interchained
namespace Interchained

/-- A two-transaction mempool: parent (txid 1) and child (txid 2), in
descending ancestor-score order. -/
def mpC6 : List MemEntry :=
  [⟨2, 100, 400, 1, 100, 100, [1, 2], 200, 101, 2, true, false⟩,
   ⟨1, 100, 400, 1, 1, 1, [1], 100, 1, 1, true, false⟩]

/-- Witness for `C6_selection_bounds` on the concrete two-entry mempool. -/
theorem C6_selection_bounds_witness :
    (addPackageTxsGo mpC6 ⟨4000000, 80000, true, fun _ => 0⟩ 10
      (initSelState mpC6)).nBlockWeight ≤ 4000000 ∧
    (addPackageTxsGo mpC6 ⟨4000000, 80000, true, fun _ => 0⟩ 10
      (initSelState mpC6)).nBlockSigOpsCost ≤ 80000 :=
  C6_selection_bounds mpC6 ⟨4000000, 80000, true, fun _ => 0⟩ 10
    (by decide) (by decide) (by decide)

end Interchained

